import Mathlib

/-!
Verification of the jerryscript fixed-capacity heap allocator
(src/jerry-core/jmem/jmem-heap.c) against its natural-language
specification.

Modelling conventions (shallow embedding):

* Machine addresses are natural numbers measured in bytes from the start of
  the global `jmem_heap` structure.  The sentinel free node `jmem_heap.first`
  sits at address 0; the byte array `jmem_heap.area` starts at address 8
  (`sizeof (jmem_heap_free_t) = 8`, and the array is aligned to
  `JMEM_ALIGNMENT = 8`, the value used by every shipped configuration).
* Offsets stored in `next_offset` fields follow the C macros
  `JMEM_HEAP_GET_OFFSET_FROM_ADDR` / `JMEM_HEAP_GET_ADDR_FROM_OFFSET`:
  `offset p = p - 8` and `addr u = u + 8` (offsets are relative to the area
  base).  The reserved `JMEM_HEAP_END_OF_LIST` marker is the all-ones 32-bit
  value, which is never a valid in-region offset.
* The heap bytes only ever matter where a free-node header
  (`jmem_heap_free_t`, fields `next_offset` and `size`) is stored, so memory
  is modelled as a total map from addresses to header values.
* The reclamation-callback registry (`jmem_run_free_unused_memory_callbacks`,
  implemented outside this file's sources) is modelled from the spec as a
  function `Severity → HeapState → HeapState` invoked synchronously.
* C loops are modelled with explicit fuel; the fuel supplied is large enough
  that, on every state satisfying the free-list well-formedness invariant,
  the walk terminates before exhausting it (proved below).  The
  `jmem_heap_limit` adjustment loops would not terminate in C when
  `CONFIG_MEM_HEAP_DESIRED_LIMIT = 0`; fuel makes them total here.
-/

namespace JmemHeap

/-- JMEM_ALIGNMENT: allocation granularity in bytes; equals
`sizeof (jmem_heap_free_t)`. -/
def ALIGNMENT : Nat := 8

/-- JMEM_ALIGNMENT_LOG: base-2 logarithm of `ALIGNMENT`. -/
def ALIGNMENT_LOG : Nat := 3

/-- Offset value of `JMEM_HEAP_END_OF_LIST` (`~(uint32_t) 0`). -/
def EOL_OFF : Nat := 2 ^ 32 - 1

/-- Address corresponding to the end-of-list offset
(`JMEM_HEAP_GET_ADDR_FROM_OFFSET` applied to `EOL_OFF`). -/
def EOL_ADDR : Nat := EOL_OFF + 8

/-- JMEM_CP_NULL: the reserved compressed-pointer value. -/
def JMEM_CP_NULL : Nat := 0

/-- Compile-time configuration: `JMEM_HEAP_AREA_SIZE` and
`CONFIG_MEM_HEAP_DESIRED_LIMIT`. -/
structure Config where
  areaSize : Nat
  desiredLimit : Nat
deriving DecidableEq

/-- jmem_heap_free_t: the two-field header overlaid on every free region. -/
structure FreeNode where
  next_offset : Nat
  size : Nat
deriving DecidableEq

/-- Allocator state: the heap bytes that hold free-node headers (including
the sentinel at address 0), `jmem_heap_allocated_size`, `jmem_heap_limit`
and `jmem_heap_list_skip_p`. -/
structure HeapState where
  mem : Nat → FreeNode
  allocatedSize : Nat
  limit : Nat
  skip : Nat

/-- Store a whole header at address `a`. -/
def setNode (s : HeapState) (a : Nat) (n : FreeNode) : HeapState :=
  { s with mem := fun x => if x = a then n else s.mem x }

/-- Store only the `next_offset` field of the header at `a`. -/
def setNext (s : HeapState) (a v : Nat) : HeapState :=
  setNode s a ⟨v, (s.mem a).size⟩

/-- Store only the `size` field of the header at `a`. -/
def setSize (s : HeapState) (a v : Nat) : HeapState :=
  setNode s a ⟨(s.mem a).next_offset, v⟩

/-- Rounding of a request to the next multiple of `JMEM_ALIGNMENT`:
`((size + JMEM_ALIGNMENT - 1) / JMEM_ALIGNMENT) * JMEM_ALIGNMENT`. -/
def roundUp (size : Nat) : Nat :=
  ((size + ALIGNMENT - 1) / ALIGNMENT) * ALIGNMENT

/-- Fueled version of the loop
`while (jmem_heap_allocated_size >= jmem_heap_limit) limit += DESIRED_LIMIT`. -/
def growLimitFuel : Nat → Nat → Nat → Nat → Nat
  | 0, _, _, limit => limit
  | fuel + 1, d, alloc, limit =>
    if limit ≤ alloc then growLimitFuel fuel d alloc (limit + d) else limit

/-- Limit growth after an allocation; `alloc + 2` steps of fuel suffice for
any positive `DESIRED_LIMIT`. -/
def growLimit (d alloc limit : Nat) : Nat := growLimitFuel (alloc + 2) d alloc limit

/-- Fueled version of the loop
`while (allocated_size + DESIRED_LIMIT <= limit) limit -= DESIRED_LIMIT`. -/
def shrinkLimitFuel : Nat → Nat → Nat → Nat → Nat
  | 0, _, _, limit => limit
  | fuel + 1, d, alloc, limit =>
    if alloc + d ≤ limit then shrinkLimitFuel fuel d alloc (limit - d) else limit

/-- Limit shrinking after a free; `limit + 1` steps of fuel suffice for any
positive `DESIRED_LIMIT`. -/
def shrinkLimit (d alloc limit : Nat) : Nat := shrinkLimitFuel (limit + 1) d alloc limit

/-- jmem_heap_init: a single free region spans the whole area; the sentinel
has size 0 and points at offset 0; `allocated_size = 0`,
`limit = DESIRED_LIMIT`, `skip = sentinel`. -/
def jmem_heap_init (cfg : Config) : HeapState :=
  { mem := fun a =>
      if a = 0 then ⟨0, 0⟩
      else if a = 8 then ⟨EOL_OFF, cfg.areaSize⟩
      else ⟨0, 0⟩
    allocatedSize := 0
    limit := cfg.desiredLimit
    skip := 0 }

/-- Fuel for the free-list walks: a well-formed list has at most
`areaSize / ALIGNMENT` nodes. -/
def walkFuel (cfg : Config) : Nat := cfg.areaSize / ALIGNMENT + 2

/-- Body of the slow-path while loop of `jmem_heap_alloc_block_internal`
(lines 287-341): walk from `prev = prevAddr`, `current = curr`; on a
sufficiently large region carve from the front (or unlink an exact fit),
set the skip pointer to `prev` and return the region's address. -/
def allocSlowLoop (required : Nat) : Nat → HeapState → Nat → Nat → Option Nat × HeapState
  | 0, s, _, _ => (none, s)
  | fuel + 1, s, prevAddr, curr =>
    if curr = EOL_ADDR then (none, s)
    else
      let node := s.mem curr
      if required ≤ node.size then
        let s1 := { s with allocatedSize := s.allocatedSize + required }
        let s2 :=
          if required < node.size then
            setNext (setNode s1 (curr + required) ⟨node.next_offset, node.size - required⟩)
              prevAddr (curr + required - 8)
          else
            setNext s1 prevAddr node.next_offset
        (some curr, { s2 with skip := prevAddr })
      else
        allocSlowLoop required fuel s curr (node.next_offset + 8)

/-- jmem_heap_alloc_block_internal: fast path for `ALIGNMENT`-sized requests
when the free list is non-empty, first-fit walk otherwise; afterwards the
limit is grown while `allocated_size >= limit`. -/
def jmem_heap_alloc_block_internal (cfg : Config) (s : HeapState) (size : Nat) :
    Option Nat × HeapState :=
  let required := roundUp size
  let step :=
    if required = ALIGNMENT ∧ (s.mem 0).next_offset ≠ EOL_OFF then
      let ds := (s.mem 0).next_offset + 8
      let node := s.mem ds
      let s1 := { s with allocatedSize := s.allocatedSize + ALIGNMENT }
      let s2 :=
        if node.size = ALIGNMENT then
          setNext s1 0 node.next_offset
        else
          setNext (setNode s1 (ds + 8) ⟨node.next_offset, node.size - ALIGNMENT⟩)
            0 (ds + 8 - 8)
      let s3 := if ds = s2.skip then { s2 with skip := (s2.mem 0).next_offset + 8 } else s2
      (some ds, s3)
    else
      allocSlowLoop required (walkFuel cfg) s 0 ((s.mem 0).next_offset + 8)
  (step.1, { step.2 with limit := growLimit cfg.desiredLimit step.2.allocatedSize step.2.limit })

/-- The find-position loop of `jmem_heap_free_block` (lines 523-533):
`while (prev_p->next_offset < block_offset) prev_p = next_p`. -/
def freeFindPrev : Nat → HeapState → Nat → Nat → Nat
  | 0, _, prevAddr, _ => prevAddr
  | fuel + 1, s, prevAddr, blockOff =>
    if (s.mem prevAddr).next_offset < blockOff then
      freeFindPrev fuel s ((s.mem prevAddr).next_offset + 8) blockOff
    else prevAddr

/-- Coalescing surgery of `jmem_heap_free_block` (lines 535-592 of the C
source) once the predecessor position `prevAddr` has been located by the
find-position walk: merge with the preceding region when its end equals the
block, merge with the following region when the block's end reaches it,
leave the skip pointer on `prev_p`, decrement `allocated_size` and shrink
the limit. -/
def freeCommit (cfg : Config) (s : HeapState) (ptr size prevAddr : Nat) : HeapState :=
  let blockOff := ptr - 8
  let nextAddr := (s.mem prevAddr).next_offset + 8
  let aligned_size := roundUp size
  let blockAddr := if prevAddr + (s.mem prevAddr).size = ptr then prevAddr else ptr
  let s1 :=
    if prevAddr + (s.mem prevAddr).size = ptr then
      setSize s prevAddr ((s.mem prevAddr).size + aligned_size)
    else
      setNext (setSize s ptr aligned_size) prevAddr blockOff
  let s2 :=
    if blockAddr + (s1.mem blockAddr).size = nextAddr then
      let sA := if nextAddr = s1.skip then { s1 with skip := blockAddr } else s1
      let sB := setSize sA blockAddr ((sA.mem blockAddr).size + (sA.mem nextAddr).size)
      setNext sB blockAddr (sB.mem nextAddr).next_offset
    else
      setNext s1 blockAddr (nextAddr - 8)
  let s3 := { s2 with skip := prevAddr }
  let alloc2 := s3.allocatedSize - aligned_size
  { s3 with
      allocatedSize := alloc2
      limit := shrinkLimit cfg.desiredLimit alloc2 s3.limit }

/-- jmem_heap_free_block: walk from the skip pointer (when the block lies
above it) or from the sentinel until `prev_p->next_offset` reaches the
block's offset, then perform the coalescing surgery. -/
def jmem_heap_free_block (cfg : Config) (s : HeapState) (ptr size : Nat) : HeapState :=
  freeCommit cfg s ptr size
    (freeFindPrev (walkFuel cfg) s (if s.skip < ptr then s.skip else 0) (ptr - 8))

/-- Severity levels of the reclamation callbacks
(`jmem_free_unused_memory_severity_t`). -/
inductive Severity where
  | low
  | high
deriving DecidableEq

/-- jmem_heap_gc_and_alloc_block, with the `LOW`-to-`HIGH` for-loop unrolled
(the enum has exactly the two values) and an event log recording each call
of `jmem_run_free_unused_memory_callbacks`.  The registry itself lives
outside this file's sources; it is modelled from the spec as a synchronous
state transformer `cb`. -/
def jmem_heap_gc_and_alloc_block (cfg : Config) (cb : Severity → HeapState → HeapState)
    (s : HeapState) (size : Nat) : Option Nat × HeapState × List Severity :=
  let s0 := if s.allocatedSize + size ≥ s.limit then cb .low s else s
  let log0 : List Severity := if s.allocatedSize + size ≥ s.limit then [.low] else []
  match jmem_heap_alloc_block_internal cfg s0 size with
  | (some p, s1) => (some p, s1, log0)
  | (none, s1) =>
    let s2 := cb .low s1
    match jmem_heap_alloc_block_internal cfg s2 size with
    | (some p, s3) => (some p, s3, log0 ++ [.low])
    | (none, s3) =>
      let s4 := cb .high s3
      match jmem_heap_alloc_block_internal cfg s4 size with
      | (some p, s5) => (some p, s5, log0 ++ [.low, .high])
      | (none, s5) => (none, s5, log0 ++ [.low, .high])

/-- Result of the caller-facing allocation wrappers: a payload pointer,
NULL, or process termination via `jerry_fatal (ERR_OUT_OF_MEMORY)`. -/
inductive BlockResult where
  | null
  | ptr (a : Nat)
  | fatal
deriving DecidableEq

/-- jmem_heap_alloc_block: NULL on a zero request, otherwise the pressure
loop; on exhaustion the engine terminates with `ERR_OUT_OF_MEMORY`. -/
def jmem_heap_alloc_block (cfg : Config) (cb : Severity → HeapState → HeapState)
    (s : HeapState) (size : Nat) : BlockResult × HeapState × List Severity :=
  if size = 0 then (.null, s, [])
  else
    match jmem_heap_gc_and_alloc_block cfg cb s size with
    | (some p, s1, log) => (.ptr p, s1, log)
    | (none, s1, log) => (.fatal, s1, log)

/-- jmem_heap_alloc_block_null_on_error: NULL on a zero request and NULL on
exhaustion. -/
def jmem_heap_alloc_block_null_on_error (cfg : Config) (cb : Severity → HeapState → HeapState)
    (s : HeapState) (size : Nat) : BlockResult × HeapState × List Severity :=
  if size = 0 then (.null, s, [])
  else
    match jmem_heap_gc_and_alloc_block cfg cb s size with
    | (some p, s1, log) => (.ptr p, s1, log)
    | (none, s1, log) => (.null, s1, log)

/-- jmem_heap_alloc_block_store_size: add `sizeof (jmem_heap_free_t)` to the
request, allocate through `jmem_heap_alloc_block`, record the enlarged byte
length in the header's `size` field and hand out the address right after
the header. -/
def jmem_heap_alloc_block_store_size (cfg : Config) (cb : Severity → HeapState → HeapState)
    (s : HeapState) (size : Nat) : Option Nat × HeapState × List Severity :=
  if size = 0 then (none, s, [])
  else
    let size2 := size + ALIGNMENT
    match jmem_heap_alloc_block cfg cb s size2 with
    | (.ptr p, s1, log) => (some (p + ALIGNMENT), setSize s1 p size2, log)
    | (_, s1, log) => (none, s1, log)

/-- jmem_heap_free_block_size_stored: recover the byte length from the
header stored right before the payload and release the block. -/
def jmem_heap_free_block_size_stored (cfg : Config) (s : HeapState) (ptr : Nat) : HeapState :=
  jmem_heap_free_block cfg s (ptr - ALIGNMENT) ((s.mem (ptr - ALIGNMENT)).size)

/-- jmem_is_heap_pointer: `area <= p && p <= area + JMEM_HEAP_AREA_SIZE`,
where `area = heapStart + 8`. -/
def jmem_is_heap_pointer (cfg : Config) (heapStart p : Nat) : Bool :=
  decide (heapStart + ALIGNMENT ≤ p) && decide (p ≤ heapStart + ALIGNMENT + cfg.areaSize)

/-- jmem_heap_compress_pointer: `(p - heap_start) >> JMEM_ALIGNMENT_LOG`. -/
def jmem_heap_compress_pointer (heapStart p : Nat) : Nat :=
  (p - heapStart) / 2 ^ ALIGNMENT_LOG

/-- jmem_heap_decompress_pointer:
`(u << JMEM_ALIGNMENT_LOG) + heap_start`. -/
def jmem_heap_decompress_pointer (heapStart u : Nat) : Nat :=
  u * 2 ^ ALIGNMENT_LOG + heapStart

/-- A registry with no registered callbacks: `run_reclamation` leaves the
state unchanged. -/
def emptyRegistry : Severity → HeapState → HeapState := fun _ s => s

/-- Configuration used by the concrete skip-hint trace: a 32-byte area (four
minimum-size blocks) with `DESIRED_LIMIT = 16`. -/
def c7cfg : Config := ⟨32, 16⟩

/-- One public allocation (fatal variant, no registered callbacks),
projecting out the successor state. -/
def c7alloc (s : HeapState) (size : Nat) : HeapState :=
  (jmem_heap_alloc_block c7cfg emptyRegistry s size).2.1

/-- State reached by the public operation sequence
alloc 8, alloc 8, alloc 8, alloc 8, free 8 8, free 24 8, alloc 8, alloc 8
starting from `jmem_heap_init`.  The two frees leave the skip pointer on a
free node; the two final fast-path allocations each consume the very node
the skip pointer rests on, the second one leaving the free list empty. -/
def c7state : HeapState :=
  let s1 := c7alloc (jmem_heap_init c7cfg) 8
  let s2 := c7alloc s1 8
  let s3 := c7alloc s2 8
  let s4 := c7alloc s3 8
  let s5 := jmem_heap_free_block c7cfg s4 8 8
  let s6 := jmem_heap_free_block c7cfg s5 24 8
  let s7 := c7alloc s6 8
  c7alloc s7 8

/-- Configuration for scenario S4: a 64-byte area with `DESIRED_LIMIT = 16`. -/
def s4cfg : Config := ⟨64, 16⟩

/-- Scenario S4 registry: the `HIGH` callback frees the pre-staged 8-byte
block at address 64; the `LOW` callback frees nothing. -/
def s4registry : Severity → HeapState → HeapState :=
  fun sev s => if sev = .high then jmem_heap_free_block s4cfg s 64 8 else s

/-- Scenario S4 fill phase: allocate 56 bytes and then the pre-staged
8-byte block, filling the heap completely (within `DESIRED_LIMIT` of
capacity). -/
def s4filled : HeapState :=
  let s1 := (jmem_heap_alloc_block s4cfg s4registry (jmem_heap_init s4cfg) 56).2.1
  (jmem_heap_alloc_block s4cfg s4registry s1 8).2.1

/-- Scenario S4 request: an 8-byte allocation that the filled heap cannot
satisfy without reclamation. -/
def s4request : BlockResult × HeapState × List Severity :=
  jmem_heap_alloc_block s4cfg s4registry s4filled 8

/-- Sum of the sizes of a list of free regions (address, size). -/
def sumSizes (L : List (Nat × Nat)) : Nat := (L.map Prod.snd).sum

/-- Invariants 1 and 2 of the spec for adjacent free nodes in list order:
`address a + a.size < address b` (sorted, disjoint, never touching). -/
def NodesOrdered (L : List (Nat × Nat)) : Prop :=
  List.Chain' (fun a b => a.1 + a.2 < b.1) L

/-- The intrusive free list read out of memory: `ChainSeg mem off L stop`
says that starting from offset `off` and following `next_offset` fields,
one passes exactly the nodes of `L` (as address-size pairs) and arrives at
offset `stop`. -/
inductive ChainSeg (mem : Nat → FreeNode) : Nat → List (Nat × Nat) → Nat → Prop
  | nil (off : Nat) : ChainSeg mem off [] off
  | cons {off stop a sz : Nat} {L : List (Nat × Nat)} :
      off ≠ EOL_OFF →
      a = off + 8 →
      sz = (mem a).size →
      ChainSeg mem (mem a).next_offset L stop →
      ChainSeg mem off ((a, sz) :: L) stop

/-- A complete free list: a chain segment terminated by `END_OF_LIST`. -/
def Chain (mem : Nat → FreeNode) (off : Nat) (L : List (Nat × Nat)) : Prop :=
  ChainSeg mem off L EOL_OFF

/-- The skip-hint invariant exactly as the specification states it:
the skip pointer is the sentinel or a node currently on the free list. -/
def skipValidClaim (s : HeapState) (L : List (Nat × Nat)) : Prop :=
  s.skip = 0 ∨ ∃ p ∈ L, s.skip = p.1

/-- Amended skip-hint invariant: the skip pointer may additionally hold the
`END_OF_LIST` address, and only while the free list is empty (this happens
when a fast-path allocation consumes the last free region while the skip
pointer rests on it). -/
def skipValidAmended (s : HeapState) (L : List (Nat × Nat)) : Prop :=
  s.skip = 0 ∨ (∃ p ∈ L, s.skip = p.1) ∨ (s.skip = EOL_ADDR ∧ L = [])

/-- Well-formedness of the allocator state, following section 3 of the
specification.  `L` is the abstract content of the free list. -/
structure WF (cfg : Config) (s : HeapState) (L : List (Nat × Nat)) : Prop where
  area_lt : 8 + cfg.areaSize < EOL_OFF
  chain : Chain s.mem (s.mem 0).next_offset L
  sentinel_size : (s.mem 0).size = 0
  lower : ∀ p ∈ L, 8 ≤ p.1
  upper : ∀ p ∈ L, p.1 + p.2 ≤ 8 + cfg.areaSize
  sizes_pos : ∀ p ∈ L, 0 < p.2
  sizes_align : ∀ p ∈ L, ALIGNMENT ∣ p.2
  addr_align : ∀ p ∈ L, ALIGNMENT ∣ p.1
  ordered : NodesOrdered L
  conservation : s.allocatedSize + sumSizes L = cfg.areaSize
  skip_ok : skipValidAmended s L

/-- Precondition of `jmem_heap_free_block`: the released block was handed
out by the allocator with this size, so it is aligned, lies inside the
area and is disjoint from every current free region. -/
structure FreePre (cfg : Config) (L : List (Nat × Nat)) (ptr size : Nat) : Prop where
  size_pos : 0 < size
  lower : 8 ≤ ptr
  upper : ptr + roundUp size ≤ 8 + cfg.areaSize
  align : ALIGNMENT ∣ ptr
  disjoint : ∀ p ∈ L, p.1 + p.2 ≤ ptr ∨ ptr + roundUp size ≤ p.1

/-- First-fit on the abstract free list, after section 4.D of the spec:
use the first (lowest-address) region of size at least `required`; an
exact fit is unlinked, a larger region is carved from the front, the
replacement node at `candidate + required` inheriting the candidate's
successor. -/
def firstFitSpec (required : Nat) : List (Nat × Nat) → Option (Nat × List (Nat × Nat))
  | [] => none
  | (a, sz) :: rest =>
    if required ≤ sz then
      some (a, if required < sz then (a + required, sz - required) :: rest else rest)
    else
      match firstFitSpec required rest with
      | some (b, rest2) => some (b, (a, sz) :: rest2)
      | none => none

/-- Retry part of the pressure protocol of section 4.F of the spec: for
each severity in the given order, run reclamation, retry the internal
allocation, and return on the first success. -/
def retrySpec (cfg : Config) (cb : Severity → HeapState → HeapState) (size : Nat) :
    List Severity → HeapState → Option Nat × HeapState × List Severity
  | [], s => (none, s, [])
  | sev :: rest, s =>
    let s1 := cb sev s
    match jmem_heap_alloc_block_internal cfg s1 size with
    | (some p, s2) => (some p, s2, [sev])
    | (none, s2) =>
      match retrySpec cfg cb size rest s2 with
      | (r, s3, log) => (r, s3, sev :: log)

/-- The full pressure protocol of section 4.F of the spec: a pre-emptive
`LOW` reclamation when `allocated_size + size ≥ limit`, one attempt, then
retries at severities `LOW` through `HIGH` in increasing order. -/
def pressureProtocolSpec (cfg : Config) (cb : Severity → HeapState → HeapState)
    (s : HeapState) (size : Nat) : Option Nat × HeapState × List Severity :=
  let s0 := if s.allocatedSize + size ≥ s.limit then cb .low s else s
  let log0 : List Severity := if s.allocatedSize + size ≥ s.limit then [.low] else []
  match jmem_heap_alloc_block_internal cfg s0 size with
  | (some p, s1) => (some p, s1, log0)
  | (none, s1) =>
    match retrySpec cfg cb size [.low, .high] s1 with
    | (r, s2, log) => (r, s2, log0 ++ log)

/-- Address of the last node of a walked prefix, or the walk's starting
address when the prefix is empty (the final value of `prev_p`). -/
def lastAddr (startAddr : Nat) : List (Nat × Nat) → Nat
  | [] => startAddr
  | q :: rest => lastAddr q.1 rest

/-- The state surgery performed by both allocation paths once a suitable
region at address `a` has been found, with `lastA` the address of the
preceding list node (`prev_p`): carve from the front or unlink an exact
fit, and leave the skip pointer on `lastA`.  This is literally the found
branch of `allocSlowLoop`. -/
def allocCommit (s : HeapState) (required lastA a : Nat) : HeapState :=
  let node := s.mem a
  let s1 := { s with allocatedSize := s.allocatedSize + required }
  let s2 :=
    if required < node.size then
      setNext (setNode s1 (a + required) ⟨node.next_offset, node.size - required⟩)
        lastA (a + required - 8)
    else
      setNext s1 lastA node.next_offset
  { s2 with skip := lastA }

/-- C1: for every `ALIGNMENT`-aligned pointer `p` inside the heap region,
`decompress (compress p) = p`, and `compress p` is never the reserved null
code `CP_NULL`. -/
theorem compress_decompress_roundtrip (cfg : Config) (heapStart p : Nat)
    (hstart : ALIGNMENT ∣ heapStart) (halign : ALIGNMENT ∣ p)
    (hin : jmem_is_heap_pointer cfg heapStart p = true) :
    jmem_heap_decompress_pointer heapStart (jmem_heap_compress_pointer heapStart p) = p ∧
    jmem_heap_compress_pointer heapStart p ≠ JMEM_CP_NULL := by
  simp only [jmem_is_heap_pointer, Bool.and_eq_true, decide_eq_true_eq] at hin
  obtain ⟨hlo, _⟩ := hin
  have hdvd : ALIGNMENT ∣ (p - heapStart) := Nat.dvd_sub' halign hstart
  have hsle : heapStart ≤ p := le_trans (Nat.le_add_right _ _) hlo
  have h8 : (2 : Nat) ^ ALIGNMENT_LOG = ALIGNMENT := by decide
  constructor
  · unfold jmem_heap_decompress_pointer jmem_heap_compress_pointer
    rw [h8, Nat.div_mul_cancel hdvd]
    omega
  · unfold jmem_heap_compress_pointer JMEM_CP_NULL
    rw [h8]
    have : ALIGNMENT ≤ p - heapStart := by unfold ALIGNMENT at *; omega
    have := (Nat.le_div_iff_mul_le (by decide : 0 < ALIGNMENT)).2 (by omega : 1 * ALIGNMENT ≤ p - heapStart)
    omega

/-- Witness for C1 at `heapStart = 16`, `p = 24`, a 32-byte area. -/
theorem compress_decompress_roundtrip_witness :
    jmem_heap_decompress_pointer 16 (jmem_heap_compress_pointer 16 24) = 24 ∧
    jmem_heap_compress_pointer 16 24 ≠ JMEM_CP_NULL :=
  compress_decompress_roundtrip ⟨32, 16⟩ 16 24 (by decide) (by decide) (by decide)

/-- C10: `jmem_is_heap_pointer` accepts exactly the pointers with
`area_base ≤ p ≤ area_base + HEAP_AREA_SIZE` (where `area_base` is
`heapStart + 8`); both bounds are inclusive, so the one-past-the-end
address of the heap area is classified as a heap pointer. -/
theorem is_heap_pointer_bounds (cfg : Config) (heapStart p : Nat) :
    (jmem_is_heap_pointer cfg heapStart p = true ↔
      heapStart + ALIGNMENT ≤ p ∧ p ≤ heapStart + ALIGNMENT + cfg.areaSize) ∧
    jmem_is_heap_pointer cfg heapStart (heapStart + ALIGNMENT + cfg.areaSize) = true := by
  constructor
  · simp [jmem_is_heap_pointer]
  · simp [jmem_is_heap_pointer]

/-- C5: both wrappers return NULL for a zero-size request; for positive
sizes, `alloc_block_null_on_error` returns NULL exactly when the pressure
loop is exhausted, while `alloc_block` never returns NULL — it terminates
with `ERR_OUT_OF_MEMORY` instead. -/
theorem alloc_variants_failure (cfg : Config) (cb : Severity → HeapState → HeapState)
    (s : HeapState) (size : Nat) :
    (size = 0 → jmem_heap_alloc_block cfg cb s size = (.null, s, []) ∧
      jmem_heap_alloc_block_null_on_error cfg cb s size = (.null, s, [])) ∧
    (0 < size →
      ((jmem_heap_alloc_block_null_on_error cfg cb s size).1 = .null ↔
        (jmem_heap_gc_and_alloc_block cfg cb s size).1 = none) ∧
      (jmem_heap_alloc_block cfg cb s size).1 ≠ .null ∧
      ((jmem_heap_gc_and_alloc_block cfg cb s size).1 = none →
        (jmem_heap_alloc_block cfg cb s size).1 = .fatal)) := by
  constructor
  · intro h0
    subst h0
    constructor <;> rfl
  · intro hpos
    have hne : size ≠ 0 := Nat.pos_iff_ne_zero.1 hpos
    rcases hgc : jmem_heap_gc_and_alloc_block cfg cb s size with ⟨r, s1, log⟩
    unfold jmem_heap_alloc_block jmem_heap_alloc_block_null_on_error
    rw [if_neg hne, if_neg hne, hgc]
    cases r <;> simp

/-- Witness for C5 at the concrete 32-byte configuration: a zero request
returns NULL and a positive request on the fresh heap does not. -/
theorem alloc_variants_failure_witness :
    jmem_heap_alloc_block c7cfg emptyRegistry (jmem_heap_init c7cfg) 0 =
      (.null, jmem_heap_init c7cfg, []) ∧
    (jmem_heap_alloc_block c7cfg emptyRegistry (jmem_heap_init c7cfg) 8).1 ≠ .null :=
  ⟨((alloc_variants_failure c7cfg emptyRegistry (jmem_heap_init c7cfg) 0).1 rfl).1,
   ((alloc_variants_failure c7cfg emptyRegistry (jmem_heap_init c7cfg) 8).2 (by decide)).2.1⟩

/-- C6: the pressure loop of `jmem_heap_gc_and_alloc_block` implements the
protocol of section 4.F of the spec: a pre-emptive `LOW` reclamation when
`allocated_size + size ≥ limit`, one attempt, then reclamation and retry
at severities `LOW` through `HIGH` in increasing order, returning the first
success and NULL only after the `HIGH` retry fails. -/
theorem gc_and_alloc_follows_protocol (cfg : Config) (cb : Severity → HeapState → HeapState)
    (s : HeapState) (size : Nat) :
    jmem_heap_gc_and_alloc_block cfg cb s size = pressureProtocolSpec cfg cb s size := by
  unfold jmem_heap_gc_and_alloc_block pressureProtocolSpec retrySpec
  simp only [ge_iff_le]
  rcases h1 : jmem_heap_alloc_block_internal cfg
      (if s.limit ≤ s.allocatedSize + size then cb .low s else s) size with ⟨r1, s1⟩
  cases r1 with
  | some p => simp [h1]
  | none =>
    rcases h2 : jmem_heap_alloc_block_internal cfg (cb .low s1) size with ⟨r2, s2⟩
    cases r2 with
    | some p => simp [h1, h2]
    | none =>
      rcases h3 : jmem_heap_alloc_block_internal cfg (cb .high s2) size with ⟨r3, s3⟩
      cases r3 <;> simp [retrySpec, h1, h2, h3]

/-- C8: scenario S4.  With the registry whose `HIGH` callback frees the
pre-staged block at address 64, the heap filled to within `DESIRED_LIMIT`
of capacity and an 8-byte request that the filled heap cannot satisfy, the
request succeeds, exactly one `LOW` callback runs followed by exactly one
`HIGH` callback, and the soft limit has advanced beyond its initial value
`DESIRED_LIMIT`. -/
theorem s4_pressure_scenario :
    (jmem_heap_alloc_block_internal s4cfg s4filled 8).1 = none ∧
    s4cfg.areaSize - s4filled.allocatedSize < s4cfg.desiredLimit ∧
    s4request.1 = .ptr 64 ∧
    s4request.2.2 = [.low, .high] ∧
    s4request.2.1.limit = 80 ∧
    (jmem_heap_init s4cfg).limit = 16 ∧
    (jmem_heap_init s4cfg).limit < s4request.2.1.limit := by decide

/-- C7 counterexample: after the eight-step public operation sequence recorded in
`c7state` the free list is empty while the skip pointer holds the
`END_OF_LIST` address, so it is neither the sentinel nor a live free-list
node — the claimed invariant fails. -/
theorem skip_hint_claim_counterexample :
    Chain c7state.mem (c7state.mem 0).next_offset [] ∧
    ¬ skipValidClaim c7state [] := by
  constructor
  · have h : (c7state.mem 0).next_offset = EOL_OFF := by decide
    rw [Chain, h]
    exact ChainSeg.nil _
  · intro hcl
    rcases hcl with h0 | ⟨p, hp, _⟩
    · have : c7state.skip ≠ 0 := by decide
      exact this h0
    · exact absurd hp (List.not_mem_nil p)

theorem setNode_mem_eq (s : HeapState) (a : Nat) (n : FreeNode) :
    (setNode s a n).mem a = n := by
  simp [setNode]

theorem setNode_mem_ne (s : HeapState) (a : Nat) (n : FreeNode) {x : Nat} (h : x ≠ a) :
    (setNode s a n).mem x = s.mem x := by
  simp [setNode, h]

@[simp] theorem setNode_allocatedSize (s : HeapState) (a : Nat) (n : FreeNode) :
    (setNode s a n).allocatedSize = s.allocatedSize := rfl

@[simp] theorem setNode_skip (s : HeapState) (a : Nat) (n : FreeNode) :
    (setNode s a n).skip = s.skip := rfl

@[simp] theorem setNode_limit (s : HeapState) (a : Nat) (n : FreeNode) :
    (setNode s a n).limit = s.limit := rfl

theorem roundUp_dvd (size : Nat) : ALIGNMENT ∣ roundUp size :=
  ⟨(size + ALIGNMENT - 1) / ALIGNMENT, by rw [roundUp, Nat.mul_comm]⟩

theorem le_roundUp (size : Nat) : size ≤ roundUp size := by
  unfold roundUp ALIGNMENT
  omega

theorem roundUp_pos {size : Nat} (h : 0 < size) : ALIGNMENT ≤ roundUp size := by
  unfold roundUp ALIGNMENT at *
  omega

theorem roundUp_of_dvd {n : Nat} (h : ALIGNMENT ∣ n) : roundUp n = n := by
  unfold ALIGNMENT at h
  obtain ⟨k, rfl⟩ := h
  unfold roundUp ALIGNMENT
  omega

theorem chainSeg_append {mem : Nat → FreeNode} {a b c : Nat} {L1 L2 : List (Nat × Nat)}
    (h1 : ChainSeg mem a L1 b) (h2 : ChainSeg mem b L2 c) :
    ChainSeg mem a (L1 ++ L2) c := by
  induction h1 with
  | nil => exact h2
  | cons hne ha hsz _ ih => exact .cons hne ha hsz (ih h2)

theorem chainSeg_split {mem : Nat → FreeNode} :
    ∀ {L1 L2 : List (Nat × Nat)} {a c : Nat},
    ChainSeg mem a (L1 ++ L2) c → ∃ b, ChainSeg mem a L1 b ∧ ChainSeg mem b L2 c := by
  intro L1
  induction L1 with
  | nil =>
    intro L2 a c h
    exact ⟨a, .nil a, h⟩
  | cons x L1 ih =>
    intro L2 a c h
    obtain ⟨xa, xsz⟩ := x
    cases h with
    | cons hne ha hsz htail =>
      obtain ⟨b, hb1, hb2⟩ := ih htail
      exact ⟨b, .cons hne ha hsz hb1, hb2⟩

theorem chainSeg_congr {mem mem' : Nat → FreeNode} {off stop : Nat} {L : List (Nat × Nat)}
    (h : ChainSeg mem off L stop) (hag : ∀ p ∈ L, mem' p.1 = mem p.1) :
    ChainSeg mem' off L stop := by
  induction h with
  | nil => exact .nil _
  | cons hne ha hsz htail ih =>
    refine .cons hne ha ?_ ?_
    · rw [hag _ (List.mem_cons_self _ _)]
      exact hsz
    · rw [hag _ (List.mem_cons_self _ _)]
      exact ih fun p hp => hag p (List.mem_cons_of_mem _ hp)

theorem chainSeg_eol_unique {mem : Nat → FreeNode} :
    ∀ {L1 : List (Nat × Nat)} {off : Nat}, ChainSeg mem off L1 EOL_OFF →
    ∀ {L2 : List (Nat × Nat)}, ChainSeg mem off L2 EOL_OFF → L1 = L2 := by
  intro L1
  induction L1 with
  | nil =>
    intro off h1 L2 h2
    cases h1
    cases h2 with
    | nil => rfl
    | cons hne _ _ _ => exact absurd rfl hne
  | cons x L1 ih =>
    intro off h1 L2 h2
    obtain ⟨xa, xsz⟩ := x
    cases h1 with
    | cons hne ha hsz htail =>
      cases h2 with
      | nil => exact absurd rfl hne
      | cons hne2 ha2 hsz2 htail2 =>
        subst ha
        subst ha2
        subst hsz
        subst hsz2
        rw [ih htail htail2]

theorem chainSeg_size_eq {mem : Nat → FreeNode} {off stop : Nat} {L : List (Nat × Nat)}
    (h : ChainSeg mem off L stop) : ∀ p ∈ L, (mem p.1).size = p.2 := by
  induction h with
  | nil =>
    intro p hp
    cases hp
  | cons hne ha hsz htail ih =>
    intro p hp
    rcases List.mem_cons.1 hp with rfl | hp'
    · exact hsz.symm
    · exact ih p hp'

theorem chainSeg_last_next {mem : Nat → FreeNode} :
    ∀ (K : List (Nat × Nat)) {off stop la lsz : Nat},
    ChainSeg mem off (K ++ [(la, lsz)]) stop → stop = (mem la).next_offset := by
  intro K
  induction K with
  | nil =>
    intro off stop la lsz h
    cases h with
    | cons hne ha hsz htail =>
      cases htail
      rfl
  | cons x K ih =>
    intro off stop la lsz h
    obtain ⟨xa, xsz⟩ := x
    cases h with
    | cons hne ha hsz htail => exact ih htail

theorem chainSeg_relabel_last {mem mem' : Nat → FreeNode} :
    ∀ (K : List (Nat × Nat)) {off stop stop' la lsz lsz' : Nat},
    ChainSeg mem off (K ++ [(la, lsz)]) stop →
    (∀ p ∈ K, mem' p.1 = mem p.1) →
    mem' la = ⟨stop', lsz'⟩ →
    ChainSeg mem' off (K ++ [(la, lsz')]) stop' := by
  intro K
  induction K with
  | nil =>
    intro off stop stop' la lsz lsz' h hag hla
    cases h with
    | cons hne ha hsz htail =>
      refine .cons hne ha ?_ ?_
      · rw [hla]
      · rw [hla]
        exact .nil _
  | cons x K ih =>
    intro off stop stop' la lsz lsz' h hag hla
    obtain ⟨xa, xsz⟩ := x
    cases h with
    | cons hne ha hsz htail =>
      refine .cons hne ha ?_ ?_
      · rw [hag _ (List.mem_cons_self _ _)]
        exact hsz
      · rw [hag _ (List.mem_cons_self _ _)]
        exact ih htail (fun p hp => hag p (List.mem_cons_of_mem _ hp)) hla

theorem nodesOrdered_cons_lt {a : Nat × Nat} {L : List (Nat × Nat)}
    (h : NodesOrdered (a :: L)) (hpos : ∀ p ∈ L, 0 < p.2) :
    ∀ b ∈ L, a.1 + a.2 < b.1 := by
  induction L generalizing a with
  | nil =>
    intro b hb
    cases hb
  | cons c L ih =>
    intro b hb
    rw [NodesOrdered, List.chain'_cons] at h
    rcases List.mem_cons.1 hb with rfl | hb'
    · exact h.1
    · have hc := hpos c (List.mem_cons_self _ _)
      have := ih h.2 (fun p hp => hpos p (List.mem_cons_of_mem _ hp)) b hb'
      omega

theorem nodesOrdered_pairwise {L : List (Nat × Nat)} (h : NodesOrdered L)
    (hpos : ∀ p ∈ L, 0 < p.2) :
    List.Pairwise (fun p q => p.1 + p.2 < q.1) L := by
  induction L with
  | nil => exact .nil
  | cons a L ih =>
    refine List.pairwise_cons.2 ⟨?_, ?_⟩
    · exact nodesOrdered_cons_lt h fun p hp => hpos p (List.mem_cons_of_mem _ hp)
    · have h' : NodesOrdered L := (List.chain'_cons'.1 h).2
      exact ih h' fun p hp => hpos p (List.mem_cons_of_mem _ hp)

@[simp] theorem sumSizes_nil : sumSizes [] = 0 := rfl

@[simp] theorem sumSizes_cons (a : Nat × Nat) (L : List (Nat × Nat)) :
    sumSizes (a :: L) = a.2 + sumSizes L := by
  simp [sumSizes]

@[simp] theorem sumSizes_append (L1 L2 : List (Nat × Nat)) :
    sumSizes (L1 ++ L2) = sumSizes L1 + sumSizes L2 := by
  simp [sumSizes]

theorem sum_le_of_pairwise :
    ∀ (L : List (Nat × Nat)) (lo hi : Nat),
    (∀ p ∈ L, lo ≤ p.1 ∧ p.1 + p.2 ≤ hi) →
    List.Pairwise (fun p q => p.1 + p.2 ≤ q.1) L →
    sumSizes L ≤ hi - lo := by
  intro L
  induction L with
  | nil =>
    intro lo hi _ _
    simp
  | cons a L ih =>
    intro lo hi hb hp
    rcases List.pairwise_cons.1 hp with ⟨hrel, hp'⟩
    have hIH := ih (a.1 + a.2) hi (fun p hpm => ⟨hrel p hpm, (hb p (List.mem_cons_of_mem _ hpm)).2⟩) hp'
    have ha := hb a (List.mem_cons_self _ _)
    rw [sumSizes_cons]
    omega

theorem block_sum_bound :
    ∀ (L : List (Nat × Nat)) (lo hi ptr asz : Nat),
    (∀ p ∈ L, lo ≤ p.1 ∧ p.1 + p.2 ≤ hi) →
    List.Pairwise (fun p q => p.1 + p.2 ≤ q.1) L →
    lo ≤ ptr → ptr + asz ≤ hi →
    (∀ p ∈ L, p.1 + p.2 ≤ ptr ∨ ptr + asz ≤ p.1) →
    sumSizes L + asz ≤ hi - lo := by
  intro L
  induction L with
  | nil =>
    intro lo hi ptr asz _ _ hlo hhi _
    simp
    omega
  | cons a L ih =>
    intro lo hi ptr asz hb hp hlo hhi hdisj
    rcases List.pairwise_cons.1 hp with ⟨hrel, hp'⟩
    have ha := hb a (List.mem_cons_self _ _)
    rcases hdisj a (List.mem_cons_self _ _) with hleft | hright
    · have hIH := ih (a.1 + a.2) hi ptr asz
        (fun p hpm => ⟨hrel p hpm, (hb p (List.mem_cons_of_mem _ hpm)).2⟩) hp' hleft hhi
        (fun p hpm => hdisj p (List.mem_cons_of_mem _ hpm))
      rw [sumSizes_cons]
      omega
    · have hsum := sum_le_of_pairwise (a :: L) (ptr + asz) hi
        (fun p hpm => ⟨?_, (hb p hpm).2⟩) hp
      · rw [sumSizes_cons] at hsum ⊢
        omega
      · rcases List.mem_cons.1 hpm with rfl | hpm'
        · exact hright
        · have := hrel p hpm'
          omega

theorem sumSizes_ge_length :
    ∀ (L : List (Nat × Nat)), (∀ p ∈ L, 8 ≤ p.2) → 8 * L.length ≤ sumSizes L := by
  intro L
  induction L with
  | nil => simp
  | cons a L ih =>
    intro h
    have := h a (List.mem_cons_self _ _)
    have := ih fun p hp => h p (List.mem_cons_of_mem _ hp)
    rw [sumSizes_cons]
    simp [List.length_cons]
    omega

theorem add_eight_ne_eol {off : Nat} (h : off ≠ EOL_OFF) : off + 8 ≠ EOL_ADDR := by
  unfold EOL_ADDR
  omega

theorem allocSlowLoop_step_eol {required fuel : Nat} {s : HeapState} {prevAddr : Nat} :
    allocSlowLoop required (fuel + 1) s prevAddr EOL_ADDR = (none, s) := by
  rw [allocSlowLoop, if_pos rfl]

theorem allocSlowLoop_step_found {required fuel : Nat} {s : HeapState} {prevAddr curr : Nat}
    (hcur : curr ≠ EOL_ADDR) (hle : required ≤ (s.mem curr).size) :
    allocSlowLoop required (fuel + 1) s prevAddr curr =
      (some curr, allocCommit s required prevAddr curr) := by
  rw [allocSlowLoop, if_neg hcur]
  simp only [allocCommit, if_pos hle]

theorem allocSlowLoop_step_next {required fuel : Nat} {s : HeapState} {prevAddr curr : Nat}
    (hcur : curr ≠ EOL_ADDR) (hgt : ¬ required ≤ (s.mem curr).size) :
    allocSlowLoop required (fuel + 1) s prevAddr curr =
      allocSlowLoop required fuel s curr ((s.mem curr).next_offset + 8) := by
  rw [allocSlowLoop, if_neg hcur]
  simp only [if_neg hgt]

theorem allocSlowLoop_none {required : Nat} :
    ∀ (L : List (Nat × Nat)) (fuel : Nat) (s : HeapState) (prevAddr curOff : Nat),
    ChainSeg s.mem curOff L EOL_OFF →
    L.length < fuel →
    (∀ p ∈ L, p.2 < required) →
    allocSlowLoop required fuel s prevAddr (curOff + 8) = (none, s) := by
  intro L
  induction L with
  | nil =>
    intro fuel s prevAddr curOff hchain hfuel _
    cases hchain
    obtain ⟨f, rfl⟩ : ∃ f, fuel = f + 1 := ⟨fuel - 1, by omega⟩
    exact allocSlowLoop_step_eol
  | cons x L ih =>
    intro fuel s prevAddr curOff hchain hfuel hsmall
    obtain ⟨xa, xsz⟩ := x
    cases hchain with
    | cons hne ha hsz htail =>
      obtain ⟨f, rfl⟩ : ∃ f, fuel = f + 1 := ⟨fuel - 1, by omega⟩
      have hcur : curOff + 8 ≠ EOL_ADDR := add_eight_ne_eol hne
      have hx : xsz < required := hsmall (xa, xsz) (List.mem_cons_self _ _)
      have hnotle : ¬ required ≤ (s.mem (curOff + 8)).size := by
        rw [← ha, ← hsz]
        omega
      rw [allocSlowLoop_step_next hcur hnotle]
      subst ha
      exact ih f s (curOff + 8) (s.mem (curOff + 8)).next_offset htail (by simpa using hfuel)
        fun p hp => hsmall p (List.mem_cons_of_mem _ hp)

theorem allocSlowLoop_found {required : Nat} :
    ∀ (L : List (Nat × Nat)) (fuel : Nat) (s : HeapState) (prevAddr curOff : Nat)
      (a : Nat) (L2 : List (Nat × Nat)),
    ChainSeg s.mem curOff L EOL_OFF →
    L.length < fuel →
    firstFitSpec required L = some (a, L2) →
    ∃ pre sz post,
      L = pre ++ (a, sz) :: post ∧
      required ≤ sz ∧
      (∀ p ∈ pre, p.2 < required) ∧
      L2 = pre ++ (if required < sz then (a + required, sz - required) :: post else post) ∧
      ChainSeg s.mem curOff pre (a - 8) ∧
      allocSlowLoop required fuel s prevAddr (curOff + 8) =
        (some a, allocCommit s required (lastAddr prevAddr pre) a) := by
  intro L
  induction L with
  | nil =>
    intro fuel s prevAddr curOff a L2 _ _ hff
    simp [firstFitSpec] at hff
  | cons x L ih =>
    intro fuel s prevAddr curOff a L2 hchain hfuel hff
    obtain ⟨xa, xsz⟩ := x
    cases hchain with
    | cons hne ha hsz htail =>
      obtain ⟨f, rfl⟩ : ∃ f, fuel = f + 1 := ⟨fuel - 1, by omega⟩
      have hcur : curOff + 8 ≠ EOL_ADDR := add_eight_ne_eol hne
      by_cases hle : required ≤ xsz
      · rw [firstFitSpec, if_pos hle] at hff
        injection hff with h
        injection h with h1 h2
        subst h1
        subst h2
        have hsz' : required ≤ (s.mem xa).size := by
          rw [← hsz]
          exact hle
        refine ⟨[], xsz, L, by simp, hle, by simp, rfl, ?_, ?_⟩
        · have hx : xa - 8 = curOff := by omega
          rw [hx]
          exact .nil _
        · simp only [lastAddr]
          rw [← ha] at hcur ⊢
          exact allocSlowLoop_step_found hcur hsz'
      · rw [firstFitSpec, if_neg hle] at hff
        rcases hrec : firstFitSpec required L with _ | ⟨b, rest2⟩
        · rw [hrec] at hff
          simp at hff
        · rw [hrec] at hff
          injection hff with h
          injection h with h1 h2
          subst h1
          subst h2
          subst ha
          obtain ⟨pre, sz, post, hLeq, hszle, hpre, hL2, hprechain, hloop⟩ :=
            ih f s (curOff + 8) (s.mem (curOff + 8)).next_offset b rest2 htail
              (by simpa using hfuel) hrec
          refine ⟨(curOff + 8, xsz) :: pre, sz, post, by rw [hLeq]; simp, hszle, ?_, ?_, ?_, ?_⟩
          · intro p hp
            rcases List.mem_cons.1 hp with rfl | hp'
            · omega
            · exact hpre p hp'
          · rw [hL2]
            simp
          · exact .cons hne rfl hsz hprechain
          · have hnotle : ¬ required ≤ (s.mem (curOff + 8)).size := by
              rw [← hsz]
              omega
            rw [allocSlowLoop_step_next hcur hnotle, lastAddr]
            exact hloop

theorem firstFitSpec_none_iff {required : Nat} :
    ∀ L : List (Nat × Nat), firstFitSpec required L = none ↔ ∀ p ∈ L, p.2 < required := by
  intro L
  induction L with
  | nil => simp [firstFitSpec]
  | cons x L ih =>
    obtain ⟨xa, xsz⟩ := x
    rw [firstFitSpec]
    by_cases h : required ≤ xsz
    · rw [if_pos h]
      constructor
      · intro hco
        exact absurd hco (by simp)
      · intro hall
        exact absurd (hall (xa, xsz) (List.mem_cons_self _ _)) (by simp; omega)
    · rw [if_neg h]
      rcases hrec : firstFitSpec required L with _ | pr
      · simp only [hrec]
        constructor
        · intro _ p hp
          rcases List.mem_cons.1 hp with rfl | hp'
          · simp
            omega
          · exact ih.1 hrec p hp'
        · intro _
          trivial
      · obtain ⟨b, rest⟩ := pr
        simp only [hrec]
        constructor
        · intro hco
          exact absurd hco (by simp)
        · intro hall
          have hn : firstFitSpec required L = none :=
            ih.2 fun p hp => hall p (List.mem_cons_of_mem _ hp)
          rw [hn] at hrec
          cases hrec

theorem lastAddr_append_single :
    ∀ (K : List (Nat × Nat)) (x : Nat) (q : Nat × Nat), lastAddr x (K ++ [q]) = q.1 := by
  intro K
  induction K with
  | nil =>
    intro x q
    rfl
  | cons y K ih =>
    intro x q
    exact ih y.1 q

theorem allocCommit_proj (s : HeapState) (required lastA a : Nat) :
    (allocCommit s required lastA a).allocatedSize = s.allocatedSize + required ∧
    (allocCommit s required lastA a).limit = s.limit ∧
    (allocCommit s required lastA a).skip = lastA := by
  unfold allocCommit setNext setNode
  by_cases h : required < (s.mem a).size <;> simp [h]

theorem allocCommit_mem_split {s : HeapState} {required lastA a : Nat}
    (hsplit : required < (s.mem a).size) (hne : lastA ≠ a + required) :
    (allocCommit s required lastA a).mem lastA =
      ⟨a + required - 8, (s.mem lastA).size⟩ ∧
    (allocCommit s required lastA a).mem (a + required) =
      ⟨(s.mem a).next_offset, (s.mem a).size - required⟩ ∧
    (∀ x, x ≠ lastA → x ≠ a + required → (allocCommit s required lastA a).mem x = s.mem x) := by
  unfold allocCommit setNext setNode
  simp only [if_pos hsplit]
  refine ⟨?_, ?_, ?_⟩
  · simp [hne]
  · simp [Ne.symm hne]
  · intro x hx1 hx2
    simp [hx1, hx2]

theorem allocCommit_mem_exact {s : HeapState} {required lastA a : Nat}
    (hexact : ¬ required < (s.mem a).size) :
    (allocCommit s required lastA a).mem lastA =
      ⟨(s.mem a).next_offset, (s.mem lastA).size⟩ ∧
    (∀ x, x ≠ lastA → (allocCommit s required lastA a).mem x = s.mem x) := by
  unfold allocCommit setNext setNode
  simp only [if_neg hexact]
  refine ⟨?_, ?_⟩
  · simp
  · intro x hx
    simp [hx]

theorem allocCommit_wf {cfg : Config} {s : HeapState} {L pre post : List (Nat × Nat)}
    {a sz required : Nat}
    (hwf : WF cfg s L)
    (hL : L = pre ++ (a, sz) :: post)
    (hszle : required ≤ sz)
    (hr8 : ALIGNMENT ∣ required)
    (hrpos : 0 < required) :
    WF cfg (allocCommit s required (lastAddr 0 pre) a)
      (pre ++ (if required < sz then (a + required, sz - required) :: post else post)) := by
  have harea := hwf.area_lt
  have hsent := hwf.sentinel_size
  have hmem_a_in : (a, sz) ∈ L := by
    rw [hL]
    exact List.mem_append_right _ (List.mem_cons_self _ _)
  have ha8 : 8 ≤ a := hwf.lower _ hmem_a_in
  have haup : a + sz ≤ 8 + cfg.areaSize := hwf.upper _ hmem_a_in
  have hszpos : 0 < sz := hwf.sizes_pos _ hmem_a_in
  have hsz8 : ALIGNMENT ∣ sz := hwf.sizes_align _ hmem_a_in
  have ha8d : ALIGNMENT ∣ a := hwf.addr_align _ hmem_a_in
  have hr8' : (8 : Nat) ∣ required := hr8
  have hPW : List.Pairwise (fun p q => p.1 + p.2 < q.1) L :=
    nodesOrdered_pairwise hwf.ordered hwf.sizes_pos
  rw [hL] at hPW
  obtain ⟨hPWpre, hPWrest, hPWrel⟩ := List.pairwise_append.1 hPW
  have hpre_lt : ∀ p ∈ pre, p.1 + p.2 < a :=
    fun p hp => hPWrel p hp (a, sz) (List.mem_cons_self _ _)
  have hpost_gt : ∀ p ∈ post, a + sz < p.1 :=
    fun p hp => (List.pairwise_cons.1 hPWrest).1 p hp
  have hord := hwf.ordered
  rw [NodesOrdered, hL] at hord
  obtain ⟨hordpre, hordrest, hordrel⟩ := List.chain'_append.1 hord
  have hchainL := hwf.chain
  rw [Chain, hL] at hchainL
  obtain ⟨mid, hpreseg, hconsseg⟩ := chainSeg_split hchainL
  cases hconsseg with
  | cons hmidne hmida hmidsz htailseg =>
  have hla_lt : lastAddr 0 pre < a := by
    rcases pre.eq_nil_or_concat' with rfl | ⟨K, q, hpreK⟩
    · simp only [lastAddr]
      omega
    · rw [hpreK, lastAddr_append_single]
      have hq : q ∈ pre := by
        rw [hpreK]
        exact List.mem_append_right _ (List.mem_cons_self _ _)
      have := hpre_lt q hq
      omega
  have hpost_ne : ∀ p ∈ post, p.1 ≠ lastAddr 0 pre ∧ p.1 ≠ a + required := by
    intro p hp
    have := hpost_gt p hp
    omega
  -- list-level facts shared by both fit cases
  have hsum := hwf.conservation
  rw [hL] at hsum
  have hproj := allocCommit_proj s required (lastAddr 0 pre) a
  by_cases hfit : required < sz
  · -- the candidate is larger than necessary: carve from the front
    rw [if_pos hfit]
    have hsplit' : required < (s.mem a).size := by
      rw [← hmidsz]
      exact hfit
    have hlane : lastAddr 0 pre ≠ a + required := by omega
    obtain ⟨hm_la, hm_rem, hm_oth⟩ := allocCommit_mem_split hsplit' hlane
    -- the new free node chained onto the old successor list
    have hsufseg : ChainSeg (allocCommit s required (lastAddr 0 pre) a).mem
        (a + required - 8) ((a + required, sz - required) :: post) EOL_OFF := by
      refine .cons ?_ ?_ ?_ ?_
      · omega
      · omega
      · rw [hm_rem, ← hmidsz]
      · rw [hm_rem]
        exact chainSeg_congr htailseg fun p hp =>
          hm_oth p.1 (hpost_ne p hp).1 (hpost_ne p hp).2
    refine ⟨harea, ?_, ?_, ?_, ?_, ?_, ?_, ?_, ?_, ?_, ?_⟩
    · -- chain
      rw [Chain]
      rcases pre.eq_nil_or_concat' with rfl | ⟨K, q, hpreK⟩
      · simp only [List.nil_append]
        simp only [lastAddr] at hm_la hsufseg ⊢
        rw [hm_la]
        exact hsufseg
      · obtain ⟨qa, qsz⟩ := q
        have hqa : lastAddr 0 pre = qa := by rw [hpreK, lastAddr_append_single]
        have hq_in : (qa, qsz) ∈ pre := by
          rw [hpreK]
          exact List.mem_append_right _ (List.mem_cons_self _ _)
        have hqa8 : 8 ≤ qa := hwf.lower _ (by rw [hL]; exact List.mem_append_left _ hq_in)
        have hqsz : (s.mem qa).size = qsz :=
          chainSeg_size_eq hchainL (qa, qsz) (List.mem_append_left _ hq_in)
        have hK_ne : ∀ p ∈ K, p.1 ≠ lastAddr 0 pre ∧ p.1 ≠ a + required := by
          intro p hp
          have hrelq := List.pairwise_append.1 (hpreK ▸ hPWpre)
          have h1 : p.1 + p.2 < qa := hrelq.2.2 p hp (qa, qsz) (List.mem_cons_self _ _)
          have h2 : p.1 + p.2 < a := hpre_lt p (by rw [hpreK]; exact List.mem_append_left _ hp)
          rw [hqa]
          omega
        have hm0 : (allocCommit s required (lastAddr 0 pre) a).mem 0 = s.mem 0 := by
          refine hm_oth 0 ?_ ?_
          · rw [hqa]; omega
          · omega
        rw [hm0]
        have hpreseg' : ChainSeg s.mem ((s.mem 0).next_offset) (K ++ [(qa, qsz)]) mid := by
          rw [← hpreK]
          exact hpreseg
        have hrelabel := chainSeg_relabel_last K hpreseg'
          (fun p hp => hm_oth p.1 (hK_ne p hp).1 (hK_ne p hp).2)
          (by rw [← hqa, hm_la, hqa, hqsz])
        rw [← hpreK] at hrelabel
        exact chainSeg_append hrelabel hsufseg
    · -- sentinel size
      rcases pre.eq_nil_or_concat' with rfl | ⟨K, q, hpreK⟩
      · simp only [lastAddr] at hm_la ⊢
        rw [hm_la]
        exact hsent
      · have hqa : lastAddr 0 pre = q.1 := by rw [hpreK, lastAddr_append_single]
        have hq_in : q ∈ pre := by
          rw [hpreK]
          exact List.mem_append_right _ (List.mem_cons_self _ _)
        have hq8 : 8 ≤ q.1 := hwf.lower _ (by rw [hL]; exact List.mem_append_left _ hq_in)
        rw [hm_oth 0 (by omega) (by omega)]
        exact hsent
    · -- lower bounds
      intro p hp
      rcases List.mem_append.1 hp with hp' | hp'
      · exact hwf.lower p (by rw [hL]; exact List.mem_append_left _ hp')
      · rcases List.mem_cons.1 hp' with rfl | hp''
        · simp
          omega
        · exact hwf.lower p (by rw [hL]; exact List.mem_append_right _ (List.mem_cons_of_mem _ hp''))
    · -- upper bounds
      intro p hp
      rcases List.mem_append.1 hp with hp' | hp'
      · exact hwf.upper p (by rw [hL]; exact List.mem_append_left _ hp')
      · rcases List.mem_cons.1 hp' with rfl | hp''
        · simp
          omega
        · exact hwf.upper p (by rw [hL]; exact List.mem_append_right _ (List.mem_cons_of_mem _ hp''))
    · -- positive sizes
      intro p hp
      rcases List.mem_append.1 hp with hp' | hp'
      · exact hwf.sizes_pos p (by rw [hL]; exact List.mem_append_left _ hp')
      · rcases List.mem_cons.1 hp' with rfl | hp''
        · simp
          omega
        · exact hwf.sizes_pos p (by rw [hL]; exact List.mem_append_right _ (List.mem_cons_of_mem _ hp''))
    · -- size alignment
      intro p hp
      rcases List.mem_append.1 hp with hp' | hp'
      · exact hwf.sizes_align p (by rw [hL]; exact List.mem_append_left _ hp')
      · rcases List.mem_cons.1 hp' with rfl | hp''
        · exact Nat.dvd_sub' hsz8 hr8
        · exact hwf.sizes_align p (by rw [hL]; exact List.mem_append_right _ (List.mem_cons_of_mem _ hp''))
    · -- address alignment
      intro p hp
      rcases List.mem_append.1 hp with hp' | hp'
      · exact hwf.addr_align p (by rw [hL]; exact List.mem_append_left _ hp')
      · rcases List.mem_cons.1 hp' with rfl | hp''
        · exact Nat.dvd_add ha8d hr8
        · exact hwf.addr_align p (by rw [hL]; exact List.mem_append_right _ (List.mem_cons_of_mem _ hp''))
    · -- ordering
      rw [NodesOrdered]
      refine List.chain'_append.2 ⟨hordpre, ?_, ?_⟩
      · refine List.chain'_cons'.2 ⟨?_, (List.chain'_cons'.1 hordrest).2⟩
        intro y hy
        have := (List.chain'_cons'.1 hordrest).1 y hy
        simp at this ⊢
        omega
      · intro x hx y hy
        have hx' := hordrel x hx (a, sz) (by simp)
        rw [List.head?_cons, Option.mem_def] at hy
        injection hy with hy
        subst hy
        simp at hx' ⊢
        omega
    · -- conservation
      rw [hproj.1, sumSizes_append, sumSizes_cons]
      rw [sumSizes_append, sumSizes_cons] at hsum
      simp at hsum ⊢
      omega
    · -- skip hint
      rw [skipValidAmended, hproj.2.2]
      rcases pre.eq_nil_or_concat' with rfl | ⟨K, q, hpreK⟩
      · exact Or.inl rfl
      · refine Or.inr (Or.inl ⟨q, ?_, ?_⟩)
        · exact List.mem_append_left _ (by rw [hpreK]; exact List.mem_append_right _ (List.mem_cons_self _ _))
        · rw [hpreK, lastAddr_append_single]
  · -- exact fit: unlink the candidate
    rw [if_neg hfit]
    have hszeq : sz = required := by omega
    have hexact' : ¬ required < (s.mem a).size := by
      rw [← hmidsz]
      omega
    obtain ⟨hm_la, hm_oth⟩ := allocCommit_mem_exact hexact'
    have hsufseg : ChainSeg (allocCommit s required (lastAddr 0 pre) a).mem
        ((s.mem a).next_offset) post EOL_OFF := by
      exact chainSeg_congr htailseg fun p hp =>
        hm_oth p.1 (hpost_ne p hp).1
    refine ⟨harea, ?_, ?_, ?_, ?_, ?_, ?_, ?_, ?_, ?_, ?_⟩
    · -- chain
      rw [Chain]
      rcases pre.eq_nil_or_concat' with rfl | ⟨K, q, hpreK⟩
      · simp only [List.nil_append]
        simp only [lastAddr] at hm_la hsufseg ⊢
        rw [hm_la]
        exact hsufseg
      · obtain ⟨qa, qsz⟩ := q
        have hqa : lastAddr 0 pre = qa := by rw [hpreK, lastAddr_append_single]
        have hq_in : (qa, qsz) ∈ pre := by
          rw [hpreK]
          exact List.mem_append_right _ (List.mem_cons_self _ _)
        have hqa8 : 8 ≤ qa := hwf.lower _ (by rw [hL]; exact List.mem_append_left _ hq_in)
        have hqsz : (s.mem qa).size = qsz :=
          chainSeg_size_eq hchainL (qa, qsz) (List.mem_append_left _ hq_in)
        have hK_ne : ∀ p ∈ K, p.1 ≠ lastAddr 0 pre := by
          intro p hp
          have hrelq := List.pairwise_append.1 (hpreK ▸ hPWpre)
          have h1 : p.1 + p.2 < qa := hrelq.2.2 p hp (qa, qsz) (List.mem_cons_self _ _)
          rw [hqa]
          omega
        have hm0 : (allocCommit s required (lastAddr 0 pre) a).mem 0 = s.mem 0 := by
          refine hm_oth 0 ?_
          rw [hqa]
          omega
        rw [hm0]
        have hpreseg' : ChainSeg s.mem ((s.mem 0).next_offset) (K ++ [(qa, qsz)]) mid := by
          rw [← hpreK]
          exact hpreseg
        have hrelabel := chainSeg_relabel_last K hpreseg'
          (fun p hp => hm_oth p.1 (hK_ne p hp))
          (by rw [← hqa, hm_la, hqa, hqsz])
        rw [← hpreK] at hrelabel
        exact chainSeg_append hrelabel hsufseg
    · -- sentinel size
      rcases pre.eq_nil_or_concat' with rfl | ⟨K, q, hpreK⟩
      · simp only [lastAddr] at hm_la ⊢
        rw [hm_la]
        exact hsent
      · have hqa : lastAddr 0 pre = q.1 := by rw [hpreK, lastAddr_append_single]
        have hq_in : q ∈ pre := by
          rw [hpreK]
          exact List.mem_append_right _ (List.mem_cons_self _ _)
        have hq8 : 8 ≤ q.1 := hwf.lower _ (by rw [hL]; exact List.mem_append_left _ hq_in)
        rw [hm_oth 0 (by omega)]
        exact hsent
    · intro p hp
      rcases List.mem_append.1 hp with hp' | hp'
      · exact hwf.lower p (by rw [hL]; exact List.mem_append_left _ hp')
      · exact hwf.lower p (by rw [hL]; exact List.mem_append_right _ (List.mem_cons_of_mem _ hp'))
    · intro p hp
      rcases List.mem_append.1 hp with hp' | hp'
      · exact hwf.upper p (by rw [hL]; exact List.mem_append_left _ hp')
      · exact hwf.upper p (by rw [hL]; exact List.mem_append_right _ (List.mem_cons_of_mem _ hp'))
    · intro p hp
      rcases List.mem_append.1 hp with hp' | hp'
      · exact hwf.sizes_pos p (by rw [hL]; exact List.mem_append_left _ hp')
      · exact hwf.sizes_pos p (by rw [hL]; exact List.mem_append_right _ (List.mem_cons_of_mem _ hp'))
    · intro p hp
      rcases List.mem_append.1 hp with hp' | hp'
      · exact hwf.sizes_align p (by rw [hL]; exact List.mem_append_left _ hp')
      · exact hwf.sizes_align p (by rw [hL]; exact List.mem_append_right _ (List.mem_cons_of_mem _ hp'))
    · intro p hp
      rcases List.mem_append.1 hp with hp' | hp'
      · exact hwf.addr_align p (by rw [hL]; exact List.mem_append_left _ hp')
      · exact hwf.addr_align p (by rw [hL]; exact List.mem_append_right _ (List.mem_cons_of_mem _ hp'))
    · rw [NodesOrdered]
      refine List.chain'_append.2 ⟨hordpre, (List.chain'_cons'.1 hordrest).2, ?_⟩
      intro x hx y hy
      have hx' := hordrel x hx (a, sz) (by simp)
      have hy' : y ∈ post := List.mem_of_mem_head? hy
      have := hpost_gt y hy'
      simp at hx' ⊢
      omega
    · rw [hproj.1, sumSizes_append]
      rw [sumSizes_append, sumSizes_cons] at hsum
      simp at hsum ⊢
      omega
    · rw [skipValidAmended, hproj.2.2]
      rcases pre.eq_nil_or_concat' with rfl | ⟨K, q, hpreK⟩
      · exact Or.inl rfl
      · refine Or.inr (Or.inl ⟨q, ?_, ?_⟩)
        · exact List.mem_append_left _ (by rw [hpreK]; exact List.mem_append_right _ (List.mem_cons_self _ _))
        · rw [hpreK, lastAddr_append_single]

theorem wf_transfer {cfg : Config} {s s' : HeapState} {L : List (Nat × Nat)}
    (hwf : WF cfg s L) (hmem : s'.mem = s.mem)
    (halloc : s'.allocatedSize = s.allocatedSize) (hskip : skipValidAmended s' L) :
    WF cfg s' L := by
  refine ⟨hwf.area_lt, ?_, ?_, hwf.lower, hwf.upper, hwf.sizes_pos, hwf.sizes_align,
    hwf.addr_align, hwf.ordered, ?_, hskip⟩
  · rw [Chain, hmem]
    exact hwf.chain
  · rw [hmem]
    exact hwf.sentinel_size
  · rw [halloc]
    exact hwf.conservation

theorem skipValidAmended_of_eq {s s' : HeapState} {L : List (Nat × Nat)}
    (h : s'.skip = s.skip) (hv : skipValidAmended s L) : skipValidAmended s' L := by
  rw [skipValidAmended, h]
  exact hv

theorem chain_head {mem : Nat → FreeNode} {off : Nat} {L : List (Nat × Nat)}
    (h : Chain mem off L) (hne : off ≠ EOL_OFF) :
    ∃ tail, L = (off + 8, (mem (off + 8)).size) :: tail ∧
      Chain mem (mem (off + 8)).next_offset tail := by
  cases h with
  | nil => exact absurd rfl hne
  | cons hne2 ha hsz htail =>
    subst ha
    subst hsz
    exact ⟨_, rfl, htail⟩

theorem wf_length_lt_fuel {cfg : Config} {s : HeapState} {L : List (Nat × Nat)}
    (hwf : WF cfg s L) : L.length < walkFuel cfg := by
  have h8 : ∀ p ∈ L, 8 ≤ p.2 := by
    intro p hp
    have h1 := hwf.sizes_pos p hp
    have h2 := hwf.sizes_align p hp
    unfold ALIGNMENT at h2
    omega
  have hlen := sumSizes_ge_length L h8
  have hsum := hwf.conservation
  unfold walkFuel ALIGNMENT
  omega

theorem alloc_internal_fast_eq {cfg : Config} {s : HeapState} {size : Nat}
    (hfastc : roundUp size = ALIGNMENT ∧ (s.mem 0).next_offset ≠ EOL_OFF)
    (hge : ALIGNMENT ≤ (s.mem ((s.mem 0).next_offset + 8)).size) :
    jmem_heap_alloc_block_internal cfg s size =
      (some ((s.mem 0).next_offset + 8),
       { allocCommit s ALIGNMENT 0 ((s.mem 0).next_offset + 8) with
           skip := if (s.mem 0).next_offset + 8 = s.skip
                   then ((allocCommit s ALIGNMENT 0 ((s.mem 0).next_offset + 8)).mem 0).next_offset + 8
                   else s.skip,
           limit := growLimit cfg.desiredLimit (s.allocatedSize + ALIGNMENT) s.limit }) := by
  unfold jmem_heap_alloc_block_internal allocCommit setNext setNode
  simp only [hfastc.1]
  simp only [true_and]
  rw [if_pos hfastc.2]
  by_cases hsz8 : (s.mem ((s.mem 0).next_offset + 8)).size = ALIGNMENT
  · have hnot : ¬ ALIGNMENT < (s.mem ((s.mem 0).next_offset + 8)).size := by omega
    rw [if_pos hsz8, if_neg hnot]
    by_cases hskip : (s.mem 0).next_offset + 8 = s.skip
    · simp [hskip, ALIGNMENT]
    · simp [hskip, ALIGNMENT]
  · have hlt : ALIGNMENT < (s.mem ((s.mem 0).next_offset + 8)).size := by omega
    rw [if_neg hsz8, if_pos hlt]
    by_cases hskip : (s.mem 0).next_offset + 8 = s.skip
    · simp [hskip, ALIGNMENT]
    · simp [hskip, ALIGNMENT]

theorem chain_eol_nil {mem : Nat → FreeNode} {L : List (Nat × Nat)}
    (h : Chain mem EOL_OFF L) : L = [] := by
  cases h with
  | nil => rfl
  | cons hc _ _ _ => exact absurd rfl hc

theorem alloc_internal_slow_eq {cfg : Config} {s : HeapState} {size : Nat}
    (hcond : ¬ (roundUp size = ALIGNMENT ∧ (s.mem 0).next_offset ≠ EOL_OFF)) :
    jmem_heap_alloc_block_internal cfg s size =
      ((allocSlowLoop (roundUp size) (walkFuel cfg) s 0 ((s.mem 0).next_offset + 8)).1,
       { (allocSlowLoop (roundUp size) (walkFuel cfg) s 0 ((s.mem 0).next_offset + 8)).2 with
           limit := growLimit cfg.desiredLimit
             (allocSlowLoop (roundUp size) (walkFuel cfg) s 0 ((s.mem 0).next_offset + 8)).2.allocatedSize
             (allocSlowLoop (roundUp size) (walkFuel cfg) s 0 ((s.mem 0).next_offset + 8)).2.limit }) := by
  unfold jmem_heap_alloc_block_internal
  dsimp only
  rw [if_neg hcond]

theorem alloc_internal_spec {cfg : Config} {s : HeapState} {L : List (Nat × Nat)} {size : Nat}
    (hwf : WF cfg s L) (hpos : 0 < size) :
    (firstFitSpec (roundUp size) L = none →
      jmem_heap_alloc_block_internal cfg s size =
        (none, { s with limit := growLimit cfg.desiredLimit s.allocatedSize s.limit }) ∧
      WF cfg { s with limit := growLimit cfg.desiredLimit s.allocatedSize s.limit } L) ∧
    (∀ a L2, firstFitSpec (roundUp size) L = some (a, L2) →
      ∃ s', jmem_heap_alloc_block_internal cfg s size = (some a, s') ∧
        WF cfg s' L2 ∧
        s'.allocatedSize = s.allocatedSize + roundUp size ∧
        ∃ sz, (a, sz) ∈ L ∧ roundUp size ≤ sz) := by
  have hr8 : ALIGNMENT ∣ roundUp size := roundUp_dvd size
  have hrpos : 0 < roundUp size := by
    have := roundUp_pos hpos
    unfold ALIGNMENT at this
    omega
  have hfuel := wf_length_lt_fuel hwf
  have hchain := hwf.chain
  constructor
  · intro hnone
    have hall : ∀ p ∈ L, p.2 < roundUp size := (firstFitSpec_none_iff L).1 hnone
    have hcond : ¬ (roundUp size = ALIGNMENT ∧ (s.mem 0).next_offset ≠ EOL_OFF) := by
      rintro ⟨h8, hne⟩
      obtain ⟨tail, hLhead, _⟩ := chain_head hchain hne
      have hmem : ((s.mem 0).next_offset + 8, (s.mem ((s.mem 0).next_offset + 8)).size) ∈ L := by
        rw [hLhead]
        exact List.mem_cons_self _ _
      have h1 := hall _ hmem
      have h2 := hwf.sizes_pos _ hmem
      have h3 := hwf.sizes_align _ hmem
      rw [h8] at h1
      simp only at h1 h2 h3
      unfold ALIGNMENT at h1 h3
      omega
    rw [alloc_internal_slow_eq hcond,
      allocSlowLoop_none L (walkFuel cfg) s 0 _ hchain hfuel hall]
    exact ⟨rfl, wf_transfer hwf rfl rfl (skipValidAmended_of_eq rfl hwf.skip_ok)⟩
  · intro a L2 hff
    by_cases hfastc : roundUp size = ALIGNMENT ∧ (s.mem 0).next_offset ≠ EOL_OFF
    · -- fast path for minimum-size requests
      obtain ⟨tail, hLhead, htailchain⟩ := chain_head hchain hfastc.2
      have hheadmem : ((s.mem 0).next_offset + 8, (s.mem ((s.mem 0).next_offset + 8)).size) ∈ L := by
        rw [hLhead]
        exact List.mem_cons_self _ _
      have hge : ALIGNMENT ≤ (s.mem ((s.mem 0).next_offset + 8)).size := by
        have h2 := hwf.sizes_pos _ hheadmem
        have h3 := hwf.sizes_align _ hheadmem
        simp only at h2 h3
        unfold ALIGNMENT at *
        omega
      have hffL : firstFitSpec (roundUp size) L =
          some ((s.mem 0).next_offset + 8,
            if roundUp size < (s.mem ((s.mem 0).next_offset + 8)).size
            then ((s.mem 0).next_offset + 8 + roundUp size,
                  (s.mem ((s.mem 0).next_offset + 8)).size - roundUp size) :: tail
            else tail) := by
        rw [hLhead, firstFitSpec, if_pos (by rw [hfastc.1]; exact hge)]
      rw [hff] at hffL
      injection hffL with hpair
      injection hpair with heqa heqL2
      have hLeq : L = [] ++ ((s.mem 0).next_offset + 8,
          (s.mem ((s.mem 0).next_offset + 8)).size) :: tail := by
        rw [hLhead]
        rfl
      have hszle : roundUp size ≤ (s.mem ((s.mem 0).next_offset + 8)).size := by
        rw [hfastc.1]
        exact hge
      have hwfc := allocCommit_wf hwf hLeq hszle hr8 hrpos
      have hla0 : lastAddr 0 ([] : List (Nat × Nat)) = 0 := rfl
      rw [alloc_internal_fast_eq hfastc hge]
      refine ⟨_, by rw [heqa], ?_, ?_, ?_⟩
      · -- well-formedness of the final fast-path state
        rw [heqL2, hfastc.1]
        rw [hla0, hfastc.1] at hwfc
        simp only [List.nil_append] at hwfc
        refine wf_transfer hwfc rfl rfl ?_
        rw [skipValidAmended]
        dsimp only
        by_cases hskip : (s.mem 0).next_offset + 8 = s.skip
        · rw [if_pos hskip]
          by_cases hfit : ALIGNMENT < (s.mem ((s.mem 0).next_offset + 8)).size
          · obtain ⟨hm_la, hm_rem, hm_oth⟩ :=
              @allocCommit_mem_split s ALIGNMENT 0 ((s.mem 0).next_offset + 8) hfit
                (by unfold ALIGNMENT; omega)
            rw [hm_la, if_pos hfit]
            refine Or.inr (Or.inl ⟨((s.mem 0).next_offset + 8 + ALIGNMENT,
              (s.mem ((s.mem 0).next_offset + 8)).size - ALIGNMENT),
              List.mem_cons_self _ _, ?_⟩)
            dsimp only
            unfold ALIGNMENT
            omega
          · obtain ⟨hm_la, hm_oth⟩ :=
              @allocCommit_mem_exact s ALIGNMENT 0 ((s.mem 0).next_offset + 8) hfit
            rw [hm_la, if_neg hfit]
            by_cases hne2 : (s.mem ((s.mem 0).next_offset + 8)).next_offset = EOL_OFF
            · have htailnil : tail = [] := chain_eol_nil (hne2 ▸ htailchain)
              refine Or.inr (Or.inr ⟨?_, htailnil⟩)
              dsimp only
              rw [hne2]
              rfl
            · obtain ⟨tail2, htail2, _⟩ := chain_head htailchain hne2
              rw [htail2]
              exact Or.inr (Or.inl ⟨((s.mem ((s.mem 0).next_offset + 8)).next_offset + 8,
                (s.mem ((s.mem ((s.mem 0).next_offset + 8)).next_offset + 8)).size),
                List.mem_cons_self _ _, rfl⟩)
        · rw [if_neg hskip]
          rcases hwf.skip_ok with h0 | ⟨p, hp, hpeq⟩ | ⟨_, hnil⟩
          · exact Or.inl h0
          · rw [hLhead] at hp
            rcases List.mem_cons.1 hp with rfl | hp'
            · exact absurd hpeq.symm hskip
            · refine Or.inr (Or.inl ⟨p, ?_, hpeq⟩)
              by_cases hfit : ALIGNMENT < (s.mem ((s.mem 0).next_offset + 8)).size
              · rw [if_pos hfit]
                exact List.mem_cons_of_mem _ hp'
              · rw [if_neg hfit]
                exact hp'
          · rw [hLhead] at hnil
            cases hnil
      · rw [hfastc.1]
        exact (allocCommit_proj s ALIGNMENT 0 ((s.mem 0).next_offset + 8)).1
      · exact ⟨(s.mem ((s.mem 0).next_offset + 8)).size, by rw [heqa]; exact hheadmem, hszle⟩
    · -- slow path: first-fit walk
      obtain ⟨pre, sz, post, hLeq, hszle, hpre, hL2, hprechain, hloop⟩ :=
        allocSlowLoop_found L (walkFuel cfg) s 0 ((s.mem 0).next_offset) a L2 hchain hfuel hff
      have hproj := allocCommit_proj s (roundUp size) (lastAddr 0 pre) a
      have hwfc := allocCommit_wf hwf hLeq hszle hr8 hrpos
      rw [alloc_internal_slow_eq hfastc, hloop]
      refine ⟨_, rfl, ?_, ?_, ⟨sz, ?_, hszle⟩⟩
      · rw [hL2]
        exact wf_transfer hwfc rfl rfl (skipValidAmended_of_eq rfl hwfc.skip_ok)
      · exact hproj.1
      · rw [hLeq]
        exact List.mem_append_right _ (List.mem_cons_self _ _)

theorem freeCommit_skip (cfg : Config) (s : HeapState) (ptr size prevAddr : Nat) :
    (freeCommit cfg s ptr size prevAddr).skip = prevAddr ∧
    (freeCommit cfg s ptr size prevAddr).allocatedSize = s.allocatedSize - roundUp size := by
  constructor
  · rfl
  · unfold freeCommit
    dsimp only
    simp only [apply_ite HeapState.allocatedSize, setSize, setNext, setNode]
    simp

theorem freeCommit_mem_np_nn {cfg : Config} {s : HeapState} {ptr size prevAddr : Nat}
    (hprev : prevAddr ≠ ptr)
    (hnp : ¬ (prevAddr + (s.mem prevAddr).size = ptr))
    (hnn : ¬ (ptr + roundUp size = (s.mem prevAddr).next_offset + 8)) :
    (freeCommit cfg s ptr size prevAddr).mem ptr =
      ⟨(s.mem prevAddr).next_offset + 8 - 8, roundUp size⟩ ∧
    (freeCommit cfg s ptr size prevAddr).mem prevAddr =
      ⟨ptr - 8, (s.mem prevAddr).size⟩ ∧
    ∀ x, x ≠ ptr → x ≠ prevAddr → (freeCommit cfg s ptr size prevAddr).mem x = s.mem x := by
  have hprev' : ¬ (ptr = prevAddr) := fun h => hprev h.symm
  unfold freeCommit setSize setNext setNode
  dsimp only
  rw [if_neg hnp, if_neg hnp]
  refine ⟨?_, ?_, ?_⟩
  · simp [hprev', hnn]
  · simp [hprev', hprev, hnn]
  · intro x hx1 hx2
    simp [hprev', hnn, hx1, hx2]

theorem freeCommit_mem_np_n {cfg : Config} {s : HeapState} {ptr size prevAddr : Nat}
    (hprev : prevAddr ≠ ptr)
    (hnp : ¬ (prevAddr + (s.mem prevAddr).size = ptr))
    (hn : ptr + roundUp size = (s.mem prevAddr).next_offset + 8)
    (hne2 : (s.mem prevAddr).next_offset + 8 ≠ ptr)
    (hne3 : (s.mem prevAddr).next_offset + 8 ≠ prevAddr) :
    (freeCommit cfg s ptr size prevAddr).mem ptr =
      ⟨(s.mem ((s.mem prevAddr).next_offset + 8)).next_offset,
       roundUp size + (s.mem ((s.mem prevAddr).next_offset + 8)).size⟩ ∧
    (freeCommit cfg s ptr size prevAddr).mem prevAddr =
      ⟨ptr - 8, (s.mem prevAddr).size⟩ ∧
    ∀ x, x ≠ ptr → x ≠ prevAddr → (freeCommit cfg s ptr size prevAddr).mem x = s.mem x := by
  have hprev' : ¬ (ptr = prevAddr) := fun h => hprev h.symm
  unfold freeCommit setSize setNext setNode
  dsimp only
  rw [if_neg hnp, if_neg hnp]
  refine ⟨?_, ?_, ?_⟩
  · simp [hprev', hn, apply_ite HeapState.mem, ite_self, Ne.symm hne2, Ne.symm hne3, hne2, hne3]
  · simp [hprev', hprev, hn, apply_ite HeapState.mem, ite_self, Ne.symm hne2, Ne.symm hne3,
      hne2, hne3]
  · intro x hx1 hx2
    simp [hprev', hn, apply_ite HeapState.mem, ite_self, Ne.symm hne2, Ne.symm hne3, hne2, hne3,
      hx1, hx2]

theorem freeCommit_mem_p_nn {cfg : Config} {s : HeapState} {ptr size prevAddr : Nat}
    (hp : prevAddr + (s.mem prevAddr).size = ptr)
    (hnn2 : ¬ (prevAddr + ((s.mem prevAddr).size + roundUp size) =
      (s.mem prevAddr).next_offset + 8)) :
    (freeCommit cfg s ptr size prevAddr).mem prevAddr =
      ⟨(s.mem prevAddr).next_offset + 8 - 8, (s.mem prevAddr).size + roundUp size⟩ ∧
    ∀ x, x ≠ prevAddr → (freeCommit cfg s ptr size prevAddr).mem x = s.mem x := by
  unfold freeCommit setSize setNext setNode
  dsimp only
  rw [if_pos hp, if_pos hp]
  refine ⟨?_, ?_⟩
  · simp [hnn2]
  · intro x hx
    simp [hnn2, hx]

theorem freeCommit_mem_p_n {cfg : Config} {s : HeapState} {ptr size prevAddr : Nat}
    (hp : prevAddr + (s.mem prevAddr).size = ptr)
    (hn2 : prevAddr + ((s.mem prevAddr).size + roundUp size) =
      (s.mem prevAddr).next_offset + 8)
    (hne3 : (s.mem prevAddr).next_offset + 8 ≠ prevAddr) :
    (freeCommit cfg s ptr size prevAddr).mem prevAddr =
      ⟨(s.mem ((s.mem prevAddr).next_offset + 8)).next_offset,
       (s.mem prevAddr).size + roundUp size + (s.mem ((s.mem prevAddr).next_offset + 8)).size⟩ ∧
    ∀ x, x ≠ prevAddr → (freeCommit cfg s ptr size prevAddr).mem x = s.mem x := by
  unfold freeCommit setSize setNext setNode
  dsimp only
  rw [if_pos hp, if_pos hp]
  refine ⟨?_, ?_⟩
  · simp [hn2, apply_ite HeapState.mem, ite_self, Ne.symm hne3, hne3]
  · intro x hx
    simp [hn2, apply_ite HeapState.mem, ite_self, Ne.symm hne3, hne3, hx]

theorem chainSeg_nil_inv {mem : Nat → FreeNode} {off stop : Nat}
    (h : ChainSeg mem off [] stop) : off = stop := by
  cases h
  rfl

theorem lastAddr_append_cons :
    ∀ (C : List (Nat × Nat)) (x : Nat) (q : Nat × Nat) (D : List (Nat × Nat)),
    lastAddr x (C ++ q :: D) = lastAddr q.1 D := by
  intro C
  induction C with
  | nil =>
    intro x q D
    rfl
  | cons y C ih =>
    intro x q D
    exact ih y.1 q D

theorem split_at_ptr {ptr : Nat} :
    ∀ (L : List (Nat × Nat)),
    List.Pairwise (fun p q => p.1 + p.2 < q.1) L →
    (∀ p ∈ L, 0 < p.2) →
    (∀ p ∈ L, p.1 < ptr ∨ ptr < p.1) →
    ∃ A B, L = A ++ B ∧ (∀ p ∈ A, p.1 < ptr) ∧ (∀ p ∈ B, ptr < p.1) := by
  intro L
  induction L with
  | nil =>
    intro _ _ _
    exact ⟨[], [], rfl, by simp, by simp⟩
  | cons x L ih =>
    intro hpw hpos hside
    obtain ⟨hrel, hpw2⟩ := List.pairwise_cons.1 hpw
    rcases hside x (List.mem_cons_self _ _) with hlt | hgt
    · obtain ⟨A, B, hAB, hA, hB⟩ := ih hpw2
        (fun p hp => hpos p (List.mem_cons_of_mem _ hp))
        (fun p hp => hside p (List.mem_cons_of_mem _ hp))
      refine ⟨x :: A, B, by rw [hAB]; rfl, ?_, hB⟩
      intro p hp
      rcases List.mem_cons.1 hp with rfl | hp2
      · exact hlt
      · exact hA p hp2
    · refine ⟨[], x :: L, rfl, by simp, ?_⟩
      intro p hp
      rcases List.mem_cons.1 hp with rfl | hp2
      · exact hgt
      · have h1 := hrel p hp2
        have h2 := hpos x (List.mem_cons_self _ _)
        omega

theorem freeFindPrev_spec {ptr : Nat} :
    ∀ (A : List (Nat × Nat)) (B : List (Nat × Nat)) (fuel : Nat) (s : HeapState)
      (startAddr : Nat),
    ChainSeg s.mem ((s.mem startAddr).next_offset) (A ++ B) EOL_OFF →
    (A ++ B).length < fuel →
    (∀ p ∈ A, p.1 < ptr) →
    (∀ p ∈ B, ptr < p.1) →
    (∀ p ∈ A ++ B, 8 ≤ p.1) →
    8 ≤ ptr →
    ptr ≤ EOL_OFF →
    freeFindPrev fuel s startAddr (ptr - 8) = lastAddr startAddr A := by
  intro A
  induction A with
  | nil =>
    intro B fuel s startAddr hchain hfuel _ hB hlow hptr hptrEOL
    obtain ⟨f, rfl⟩ : ∃ f, fuel = f + 1 := ⟨fuel - 1, by omega⟩
    rw [freeFindPrev]
    rw [if_neg ?_]
    · rfl
    · cases B with
      | nil =>
        have hoff := chainSeg_nil_inv hchain
        rw [hoff]
        omega
      | cons b B2 =>
        obtain ⟨ba, bsz⟩ := b
        cases hchain with
        | cons hne ha hsz htail =>
          have hgt := hB (ba, bsz) (List.mem_cons_self _ _)
          have hlo := hlow (ba, bsz) (List.mem_cons_self _ _)
          simp only at hgt hlo
          omega
  | cons x A2 ih =>
    intro B fuel s startAddr hchain hfuel hA hB hlow hptr hptrEOL
    obtain ⟨xa, xsz⟩ := x
    cases hchain with
    | cons hne ha hsz htail =>
      obtain ⟨f, rfl⟩ : ∃ f, fuel = f + 1 := ⟨fuel - 1, by omega⟩
      have hlt := hA (xa, xsz) (List.mem_cons_self _ _)
      have hlo := hlow (xa, xsz) (List.mem_append_left _ (List.mem_cons_self _ _))
      simp only at hlt hlo
      rw [freeFindPrev, if_pos (by omega)]
      rw [← ha]
      simp only [lastAddr]
      exact ih B f s xa htail (by simpa using hfuel)
        (fun p hp => hA p (List.mem_cons_of_mem _ hp)) hB
        (fun p hp => hlow p (List.mem_cons_of_mem _ hp)) hptr hptrEOL

theorem forall_mem_append_cons {P : Nat × Nat → Prop} {X Y : List (Nat × Nat)} {e : Nat × Nat}
    (hX : ∀ p ∈ X, P p) (he : P e) (hY : ∀ p ∈ Y, P p) :
    ∀ p ∈ X ++ e :: Y, P p := by
  intro p hp
  rcases List.mem_append.1 hp with h1 | h1
  · exact hX p h1
  · rcases List.mem_cons.1 h1 with rfl | h2
    · exact he
    · exact hY p h2

theorem nodesOrdered_build {X Y : List (Nat × Nat)} {e : Nat × Nat}
    (hX : NodesOrdered X) (hY : NodesOrdered Y)
    (hXe : ∀ x ∈ X.getLast?, x.1 + x.2 < e.1)
    (heY : ∀ y ∈ Y.head?, e.1 + e.2 < y.1) :
    NodesOrdered (X ++ e :: Y) := by
  refine List.chain'_append.2 ⟨hX, List.chain'_cons'.2 ⟨heY, hY⟩, ?_⟩
  intro x hx y hy
  rw [List.head?_cons, Option.mem_def] at hy
  injection hy with hy
  subst hy
  exact hXe x hx

theorem chain_build {mem' : Nat → FreeNode} {first2 : Nat} {X Y : List (Nat × Nat)}
    {ba bsz nxt : Nat}
    (hX : ChainSeg mem' first2 X (ba - 8))
    (hb : mem' ba = ⟨nxt, bsz⟩) (hba : 8 ≤ ba) (hbane : ba - 8 ≠ EOL_OFF)
    (hY : ChainSeg mem' nxt Y EOL_OFF) :
    ChainSeg mem' first2 (X ++ (ba, bsz) :: Y) EOL_OFF := by
  refine chainSeg_append hX (ChainSeg.cons hbane ?_ ?_ ?_)
  · omega
  · rw [hb]
  · rw [hb]
    exact hY

theorem free_block_allocated (cfg : Config) (s : HeapState) (ptr size : Nat) :
    (jmem_heap_free_block cfg s ptr size).allocatedSize = s.allocatedSize - roundUp size := by
  unfold jmem_heap_free_block
  exact (freeCommit_skip cfg s ptr size _).2

theorem free_block_spec {cfg : Config} {s : HeapState} {L : List (Nat × Nat)} {ptr size : Nat}
    (hwf : WF cfg s L) (hfp : FreePre cfg L ptr size) :
    ∃ L2, WF cfg (jmem_heap_free_block cfg s ptr size) L2 ∧
      sumSizes L2 = sumSizes L + roundUp size := by
  have harea := hwf.area_lt
  have hasz8 : 8 ≤ roundUp size := by
    have := roundUp_pos hfp.size_pos
    unfold ALIGNMENT at this
    omega
  have haszd : ALIGNMENT ∣ roundUp size := roundUp_dvd size
  have hptrup := hfp.upper
  have hptrlow := hfp.lower
  have hPW := nodesOrdered_pairwise hwf.ordered hwf.sizes_pos
  have hside : ∀ p ∈ L, p.1 < ptr ∨ ptr < p.1 := by
    intro p hp
    rcases hfp.disjoint p hp with h1 | h1
    · have := hwf.sizes_pos p hp
      omega
    · omega
  obtain ⟨A, B, hAB, hA, hB⟩ := split_at_ptr L hPW hwf.sizes_pos hside
  have hchainL := hwf.chain
  rw [Chain, hAB] at hchainL
  obtain ⟨mid, hchainA, hchainB⟩ := chainSeg_split hchainL
  have hAlast : (A = [] ∧ lastAddr 0 A = 0) ∨
      (∃ K q, A = K ++ [q] ∧ lastAddr 0 A = q.1 ∧ q ∈ A) := by
    rcases A.eq_nil_or_concat' with rfl | ⟨K, q, hK⟩
    · exact Or.inl ⟨rfl, rfl⟩
    · exact Or.inr ⟨K, q, hK, by rw [hK, lastAddr_append_single],
        by rw [hK]; exact List.mem_append_right _ (List.mem_cons_self _ _)⟩
  have hmid : (s.mem (lastAddr 0 A)).next_offset = mid := by
    rcases hAlast with ⟨rfl, hla⟩ | ⟨K, q, hK, hla, _⟩
    · rw [hla]
      exact chainSeg_nil_inv hchainA
    · rw [hla]
      rw [hK] at hchainA
      exact (chainSeg_last_next K hchainA).symm
  have hwalk : freeFindPrev (walkFuel cfg) s (if s.skip < ptr then s.skip else 0) (ptr - 8)
      = lastAddr 0 A := by
    have hfuelw : (A ++ B).length < walkFuel cfg := by
      rw [← hAB]
      exact wf_length_lt_fuel hwf
    have hlow : ∀ p ∈ A ++ B, 8 ≤ p.1 := by
      rw [← hAB]
      exact hwf.lower
    have hptrEOL : ptr ≤ EOL_OFF := by omega
    by_cases hsl : s.skip < ptr
    · rw [if_pos hsl]
      rcases hwf.skip_ok with h0 | ⟨qs, hqs, hqeq⟩ | ⟨hEol, _⟩
      · rw [h0]
        exact freeFindPrev_spec A B _ s 0 hchainL hfuelw hA hB hlow hfp.lower hptrEOL
      · rw [hqeq]
        have hqsA : qs ∈ A := by
          rw [hAB] at hqs
          rcases List.mem_append.1 hqs with h1 | h1
          · exact h1
          · exact absurd (hB qs h1) (by omega)
        obtain ⟨A1, A2, hAsplit⟩ := List.append_of_mem hqsA
        have hrearr : A ++ B = (A1 ++ [qs]) ++ (A2 ++ B) := by
          rw [hAsplit]
          simp
        have hchainL2 := hchainL
        rw [hrearr] at hchainL2
        obtain ⟨mid2, hc1, hc2⟩ := chainSeg_split hchainL2
        have hmid2 : mid2 = (s.mem qs.1).next_offset := chainSeg_last_next A1 hc1
        rw [hmid2] at hc2
        have hres := freeFindPrev_spec A2 B (walkFuel cfg) s qs.1 hc2
          (by
            have : (A2 ++ B).length ≤ (A ++ B).length := by
              rw [hrearr]
              simp only [List.length_append, List.length_cons, List.length_singleton]
              omega
            omega)
          (fun p hp => hA p (by rw [hAsplit]; exact List.mem_append_right _ (List.mem_cons_of_mem _ hp)))
          hB
          (fun p hp => hlow p (by
            rcases List.mem_append.1 hp with h1 | h1
            · exact List.mem_append_left _ (by rw [hAsplit]; exact List.mem_append_right _ (List.mem_cons_of_mem _ h1))
            · exact List.mem_append_right _ h1))
          hfp.lower hptrEOL
        rw [hres, hAsplit, lastAddr_append_cons]
      · exfalso
        rw [hEol] at hsl
        unfold EOL_ADDR EOL_OFF at hsl
        have := harea
        unfold EOL_OFF at this
        omega
    · rw [if_neg hsl]
      exact freeFindPrev_spec A B _ s 0 hchainL hfuelw hA hB hlow hfp.lower hptrEOL
  have hfree : jmem_heap_free_block cfg s ptr size = freeCommit cfg s ptr size (lastAddr 0 A) := by
    unfold jmem_heap_free_block
    rw [hwalk]
  have hLmem : ∀ p ∈ L, 8 ≤ p.1 ∧ p.1 + p.2 ≤ 8 + cfg.areaSize ∧ 0 < p.2 ∧
      ALIGNMENT ∣ p.2 ∧ ALIGNMENT ∣ p.1 :=
    fun p hp => ⟨hwf.lower p hp, hwf.upper p hp, hwf.sizes_pos p hp,
      hwf.sizes_align p hp, hwf.addr_align p hp⟩
  have hfits : sumSizes L + roundUp size ≤ cfg.areaSize := by
    have hb2 := block_sum_bound L 8 (8 + cfg.areaSize) ptr (roundUp size)
      (fun p hp => ⟨(hLmem p hp).1, (hLmem p hp).2.1⟩)
      (hPW.imp fun h => Nat.le_of_lt h)
      hfp.lower hfp.upper hfp.disjoint
    omega
  have hordL := hwf.ordered
  rw [NodesOrdered, hAB] at hordL
  obtain ⟨hordA, hordB, hordAB⟩ := List.chain'_append.1 hordL
  have hsalloc := (freeCommit_skip cfg s ptr size (lastAddr 0 A)).2
  have hsskip := (freeCommit_skip cfg s ptr size (lastAddr 0 A)).1
  have hcons := hwf.conservation
  rcases hAlast with ⟨hAnil, hla⟩ | ⟨K, q, hK, hla, hqA⟩
  · -- the freed block has no preceding free region: `prev` is the sentinel
    subst hAnil
    rw [List.nil_append] at hAB
    simp only [lastAddr] at hmid hsalloc hsskip hfree
    have hnp : ¬ ((0 : Nat) + (s.mem 0).size = ptr) := by
      rw [hwf.sentinel_size]
      omega
    cases B with
    | nil =>
      -- empty free list: the freed block becomes the single region
      have hmidEol : mid = EOL_OFF := chainSeg_nil_inv hchainB
      have hnn : ¬ (ptr + roundUp size = (s.mem 0).next_offset + 8) := by
        rw [hmid, hmidEol]
        omega
      obtain ⟨hm_ptr, hm_la, hm_oth⟩ :=
        @freeCommit_mem_np_nn cfg s ptr size 0 (by omega) hnp hnn
      have hm_ptr2 : (freeCommit cfg s ptr size 0).mem ptr = ⟨EOL_OFF, roundUp size⟩ := by
        rw [hm_ptr, hmid, hmidEol]
        simp
      refine ⟨[(ptr, roundUp size)], ?_, by rw [hAB]; simp⟩
      rw [hfree]
      refine ⟨harea, ?_, ?_, ?_, ?_, ?_, ?_, ?_, ?_, ?_, ?_⟩
      · rw [Chain, hm_la]
        exact chain_build (ChainSeg.nil _) hm_ptr2 hfp.lower (by omega) (ChainSeg.nil _)
      · rw [hm_la]
        exact hwf.sentinel_size
      · intro p hp
        rw [List.mem_singleton.1 hp]
        exact hfp.lower
      · intro p hp
        rw [List.mem_singleton.1 hp]
        exact hfp.upper
      · intro p hp
        rw [List.mem_singleton.1 hp]
        omega
      · intro p hp
        rw [List.mem_singleton.1 hp]
        exact haszd
      · intro p hp
        rw [List.mem_singleton.1 hp]
        exact hfp.align
      · exact List.chain'_singleton _
      · rw [hsalloc]
        have : sumSizes L = 0 := by
          rw [hAB]
          rfl
        simp only [sumSizes_cons, sumSizes_nil]
        omega
      · rw [skipValidAmended, hsskip]
        exact Or.inl rfl
    | cons b B2 =>
      obtain ⟨ba, bsz⟩ := b
      cases hchainB with
      | cons hbne hba hbsz htailB =>
      have hbmem : (ba, bsz) ∈ L := by
        rw [hAB]
        exact List.mem_cons_self _ _
      have hbgt : ptr < ba := by
        have := hB (ba, bsz) (List.mem_cons_self _ _)
        simpa using this
      have hbfacts := hLmem _ hbmem
      have hdisjb := hfp.disjoint _ hbmem
      by_cases hnm : ptr + roundUp size = ba
      · -- the freed block touches the following region: coalesce with it
        have hn : ptr + roundUp size = (s.mem 0).next_offset + 8 := by
          rw [hmid]
          omega
        obtain ⟨hm_ptr, hm_la, hm_oth⟩ :=
          @freeCommit_mem_np_n cfg s ptr size 0 (by omega) hnp hn
            (by rw [hmid]; omega) (by rw [hmid]; omega)
        have hnext_eq : (s.mem 0).next_offset + 8 = ba := by
          rw [hmid]
          omega
        have hm_ptr2 : (freeCommit cfg s ptr size 0).mem ptr =
            ⟨(s.mem ba).next_offset, roundUp size + bsz⟩ := by
          rw [hm_ptr, hnext_eq, ← hbsz]
        have hB2mem : ∀ p ∈ B2, p.1 ≠ ptr ∧ p.1 ≠ 0 := by
          intro p hp
          have hpB : p ∈ (ba, bsz) :: B2 := List.mem_cons_of_mem _ hp
          have := hB p hpB
          have hlow := hwf.lower p (by rw [hAB]; exact hpB)
          omega
        refine ⟨[] ++ (ptr, roundUp size + bsz) :: B2, ?_, ?_⟩
        swap
        · rw [hAB]
          simp only [sumSizes_cons, sumSizes_append, sumSizes_nil, List.nil_append]
          omega
        rw [hfree]
        have hchainB2 : ChainSeg (freeCommit cfg s ptr size 0).mem (s.mem ba).next_offset B2 EOL_OFF :=
          chainSeg_congr htailB fun p hp => hm_oth p.1 (hB2mem p hp).1 (hB2mem p hp).2
        have hordB2 := (List.chain'_cons'.1 hordB).2
        have hbrel := (List.chain'_cons'.1 hordB).1
        refine ⟨harea, ?_, ?_, ?_, ?_, ?_, ?_, ?_, ?_, ?_, ?_⟩
        · rw [Chain, hm_la]
          exact chain_build (ChainSeg.nil _) hm_ptr2 hfp.lower (by omega) hchainB2
        · rw [hm_la]
          exact hwf.sentinel_size
        · refine forall_mem_append_cons (by simp) ?_ ?_
          · exact hfp.lower
          · intro p hp
            exact (hLmem p (by rw [hAB]; exact List.mem_cons_of_mem _ hp)).1
        · refine forall_mem_append_cons (by simp) ?_ ?_
          · simp only
            omega
          · intro p hp
            exact (hLmem p (by rw [hAB]; exact List.mem_cons_of_mem _ hp)).2.1
        · refine forall_mem_append_cons (by simp) ?_ ?_
          · simp only
            omega
          · intro p hp
            exact (hLmem p (by rw [hAB]; exact List.mem_cons_of_mem _ hp)).2.2.1
        · refine forall_mem_append_cons (by simp) ?_ ?_
          · simp only
            exact Nat.dvd_add haszd (hbfacts).2.2.2.1
          · intro p hp
            exact (hLmem p (by rw [hAB]; exact List.mem_cons_of_mem _ hp)).2.2.2.1
        · refine forall_mem_append_cons (by simp) ?_ ?_
          · exact hfp.align
          · intro p hp
            exact (hLmem p (by rw [hAB]; exact List.mem_cons_of_mem _ hp)).2.2.2.2
        · refine nodesOrdered_build (by exact List.chain'_nil) hordB2 (by simp) ?_
          intro y hy
          have := hbrel y hy
          simp only at this ⊢
          omega
        · rw [hsalloc]
          simp only [sumSizes_cons, sumSizes_append, sumSizes_nil, List.nil_append]
          have hsum2 : s.allocatedSize + (bsz + sumSizes B2) = cfg.areaSize := by
            rw [hAB] at hcons
            simpa using hcons
          rw [hAB] at hfits
          simp only [sumSizes_cons] at hfits
          omega
        · rw [skipValidAmended, hsskip]
          exact Or.inl rfl
      · -- the freed block does not reach the following region
        have hnn : ¬ (ptr + roundUp size = (s.mem 0).next_offset + 8) := by
          rw [hmid]
          omega
        obtain ⟨hm_ptr, hm_la, hm_oth⟩ :=
          @freeCommit_mem_np_nn cfg s ptr size 0 (by omega) hnp hnn
        have hm_ptr2 : (freeCommit cfg s ptr size 0).mem ptr = ⟨mid, roundUp size⟩ := by
          rw [hm_ptr, hmid]
          simp
        have hBmem : ∀ p ∈ (ba, bsz) :: B2, p.1 ≠ ptr ∧ p.1 ≠ 0 := by
          intro p hp
          have := hB p hp
          have hlow := hwf.lower p (by rw [hAB]; exact hp)
          omega
        refine ⟨[] ++ (ptr, roundUp size) :: ((ba, bsz) :: B2), ?_, ?_⟩
        swap
        · rw [hAB]
          simp only [sumSizes_cons, sumSizes_append, sumSizes_nil, List.nil_append]
          omega
        rw [hfree]
        have hchainB2 : ChainSeg (freeCommit cfg s ptr size 0).mem mid ((ba, bsz) :: B2) EOL_OFF := by
          refine chainSeg_congr ?_ fun p hp => hm_oth p.1 (hBmem p hp).1 (hBmem p hp).2
          exact ChainSeg.cons hbne hba hbsz htailB
        refine ⟨harea, ?_, ?_, ?_, ?_, ?_, ?_, ?_, ?_, ?_, ?_⟩
        · rw [Chain, hm_la]
          exact chain_build (ChainSeg.nil _) hm_ptr2 hfp.lower (by omega) hchainB2
        · rw [hm_la]
          exact hwf.sentinel_size
        · refine forall_mem_append_cons (by simp) hfp.lower ?_
          intro p hp
          exact (hLmem p (by rw [hAB]; exact hp)).1
        · refine forall_mem_append_cons (by simp) hfp.upper ?_
          intro p hp
          exact (hLmem p (by rw [hAB]; exact hp)).2.1
        · refine forall_mem_append_cons (by simp) (by omega) ?_
          intro p hp
          exact (hLmem p (by rw [hAB]; exact hp)).2.2.1
        · refine forall_mem_append_cons (by simp) haszd ?_
          intro p hp
          exact (hLmem p (by rw [hAB]; exact hp)).2.2.2.1
        · refine forall_mem_append_cons (by simp) hfp.align ?_
          intro p hp
          exact (hLmem p (by rw [hAB]; exact hp)).2.2.2.2
        · refine nodesOrdered_build (by exact List.chain'_nil) hordB (by simp) ?_
          intro y hy
          rw [List.head?_cons, Option.mem_def] at hy
          injection hy with hy
          subst hy
          simp only
          omega
        · rw [hsalloc]
          simp only [sumSizes_cons, sumSizes_append, sumSizes_nil, List.nil_append]
          rw [hAB] at hcons hfits
          simp only [sumSizes_cons] at hcons hfits
          omega
        · rw [skipValidAmended, hsskip]
          exact Or.inl rfl
  · -- there is a preceding free region `q`
    obtain ⟨qa, qsz⟩ := q
    have hla2 : lastAddr 0 A = qa := hla
    rw [hla2] at hmid hsalloc hsskip hfree
    have hqmemL : (qa, qsz) ∈ L := by
      rw [hAB]
      exact List.mem_append_left _ hqA
    have hqfacts := hLmem _ hqmemL
    dsimp only at hqfacts
    have hqlt : qa < ptr := by
      have := hA _ hqA
      dsimp only at this
      exact this
    have hqle : qa + qsz ≤ ptr := by
      have hdq := hfp.disjoint _ hqmemL
      dsimp only at hdq
      omega
    have hqsz : (s.mem qa).size = qsz := by
      have := chainSeg_size_eq hchainL (qa, qsz) (by rw [← hAB]; exact hqmemL)
      dsimp only at this
      exact this
    have hcKq : ChainSeg s.mem (s.mem 0).next_offset (K ++ [(qa, qsz)]) mid := by
      rw [← hK]
      exact hchainA
    have hAmemL : ∀ p ∈ A, p ∈ L := by
      intro p hp
      rw [hAB]
      exact List.mem_append_left _ hp
    have hBmemL : ∀ p ∈ B, p ∈ L := by
      intro p hp
      rw [hAB]
      exact List.mem_append_right _ hp
    have hPA : List.Pairwise (fun p r => p.1 + p.2 < r.1) A := by
      rw [hAB] at hPW
      exact (List.pairwise_append.1 hPW).1
    have hKq : ∀ p ∈ K, p.1 + p.2 < qa := by
      rw [hK] at hPA
      intro p hp
      have h2 := (List.pairwise_append.1 hPA).2.2 p hp (qa, qsz) (List.mem_singleton_self _)
      dsimp only at h2
      exact h2
    have hKmemL : ∀ p ∈ K, p ∈ L := by
      intro p hp
      refine hAmemL p ?_
      rw [hK]
      exact List.mem_append_left _ hp
    have hKne : ∀ p ∈ K, p.1 ≠ ptr ∧ p.1 ≠ qa := by
      intro p hp
      have h1 := hKq p hp
      have h2 := hwf.sizes_pos p (hKmemL p hp)
      constructor <;> omega
    have hBne : ∀ p ∈ B, p.1 ≠ ptr ∧ p.1 ≠ qa := by
      intro p hp
      have := hB p hp
      constructor <;> omega
    have hordA2 := hordA
    rw [hK] at hordA2
    have hlinkKq := (List.chain'_append.1 hordA2).2.2
    have hordK := (List.chain'_append.1 hordA2).1
    have hXe_q : ∀ x ∈ K.getLast?, x.1 + x.2 < qa := by
      intro x hx
      have := hlinkKq x hx (qa, qsz) rfl
      dsimp only at this
      exact this
    by_cases hpm : qa + (s.mem qa).size = ptr
    · -- the freed block is adjacent to `q`: coalesce into `q`
      cases B with
      | nil =>
        have hmidEol : mid = EOL_OFF := chainSeg_nil_inv hchainB
        have hnn2 : ¬ (qa + ((s.mem qa).size + roundUp size) = (s.mem qa).next_offset + 8) := by
          rw [hmid, hmidEol]
          omega
        obtain ⟨hm_qa, hm_oth⟩ := @freeCommit_mem_p_nn cfg s ptr size qa hpm hnn2
        have hm_qa2 : (freeCommit cfg s ptr size qa).mem qa = ⟨EOL_OFF, qsz + roundUp size⟩ := by
          rw [hm_qa, hmid, hmidEol, hqsz]
          simp
        have hm0 : (freeCommit cfg s ptr size qa).mem 0 = s.mem 0 := hm_oth 0 (by omega)
        refine ⟨K ++ [(qa, qsz + roundUp size)], ?_, ?_⟩
        swap
        · rw [hAB, hK]
          simp only [sumSizes_append, sumSizes_cons, sumSizes_nil, List.append_nil]
          omega
        rw [hfree]
        refine ⟨harea, ?_, ?_, ?_, ?_, ?_, ?_, ?_, ?_, ?_, ?_⟩
        · rw [Chain, hm0]
          exact chainSeg_relabel_last K hcKq (fun p hp => hm_oth p.1 (hKne p hp).2) hm_qa2
        · rw [hm0]
          exact hwf.sentinel_size
        · refine forall_mem_append_cons (fun p hp => (hLmem p (hKmemL p hp)).1) ?_ (by simp)
          exact hqfacts.1
        · refine forall_mem_append_cons (fun p hp => (hLmem p (hKmemL p hp)).2.1) ?_ (by simp)
          dsimp only
          omega
        · refine forall_mem_append_cons (fun p hp => (hLmem p (hKmemL p hp)).2.2.1) ?_ (by simp)
          dsimp only
          omega
        · refine forall_mem_append_cons (fun p hp => (hLmem p (hKmemL p hp)).2.2.2.1) ?_ (by simp)
          exact Nat.dvd_add hqfacts.2.2.2.1 haszd
        · refine forall_mem_append_cons (fun p hp => (hLmem p (hKmemL p hp)).2.2.2.2) ?_ (by simp)
          exact hqfacts.2.2.2.2
        · exact nodesOrdered_build hordK List.chain'_nil hXe_q (by simp)
        · rw [hsalloc]
          rw [hAB, hK] at hcons hfits
          simp only [sumSizes_append, sumSizes_cons, sumSizes_nil, List.append_nil] at hcons hfits ⊢
          omega
        · rw [skipValidAmended, hsskip]
          exact Or.inr (Or.inl ⟨(qa, qsz + roundUp size),
            List.mem_append_right _ (List.mem_singleton_self _), rfl⟩)
      | cons b B2 =>
        obtain ⟨ba, bsz⟩ := b
        cases hchainB with
        | cons hbne hba hbsz htailB =>
        have hbmemL : (ba, bsz) ∈ L := hBmemL _ (List.mem_cons_self _ _)
        have hbfacts := hLmem _ hbmemL
        dsimp only at hbfacts
        have hbgt : ptr < ba := by
          have := hB (ba, bsz) (List.mem_cons_self _ _)
          dsimp only at this
          exact this
        have hdisjb := hfp.disjoint _ hbmemL
        dsimp only at hdisjb
        have hB2ne : ∀ p ∈ B2, p.1 ≠ qa := fun p hp =>
          (hBne p (List.mem_cons_of_mem _ hp)).2
        have hbrel := (List.chain'_cons'.1 hordB).1
        have hordB2 := (List.chain'_cons'.1 hordB).2
        have hnext_eq : (s.mem qa).next_offset + 8 = ba := by
          rw [hmid]
          omega
        by_cases hnm : ptr + roundUp size = ba
        · -- coalesce with both neighbours
          have hn2 : qa + ((s.mem qa).size + roundUp size) = (s.mem qa).next_offset + 8 := by
            rw [hmid]
            omega
          have hne3 : (s.mem qa).next_offset + 8 ≠ qa := by
            rw [hnext_eq]
            omega
          obtain ⟨hm_qa, hm_oth⟩ := @freeCommit_mem_p_n cfg s ptr size qa hpm hn2 hne3
          have hm_qa2 : (freeCommit cfg s ptr size qa).mem qa =
              ⟨(s.mem ba).next_offset, qsz + roundUp size + bsz⟩ := by
            rw [hm_qa, hnext_eq, ← hbsz, hqsz]
          have hm0 : (freeCommit cfg s ptr size qa).mem 0 = s.mem 0 := hm_oth 0 (by omega)
          refine ⟨K ++ (qa, qsz + roundUp size + bsz) :: B2, ?_, ?_⟩
          swap
          · rw [hAB, hK]
            simp only [sumSizes_append, sumSizes_cons, sumSizes_nil]
            omega
          rw [hfree]
          have hchainB2 : ChainSeg (freeCommit cfg s ptr size qa).mem (s.mem ba).next_offset
              B2 EOL_OFF :=
            chainSeg_congr htailB fun p hp => hm_oth p.1 (hB2ne p hp)
          have hrel := chainSeg_relabel_last K hcKq
            (fun p hp => hm_oth p.1 (hKne p hp).2) hm_qa2
          have hchainL2 := chainSeg_append hrel hchainB2
          rw [List.append_assoc] at hchainL2
          refine ⟨harea, ?_, ?_, ?_, ?_, ?_, ?_, ?_, ?_, ?_, ?_⟩
          · rw [Chain, hm0]
            exact hchainL2
          · rw [hm0]
            exact hwf.sentinel_size
          · refine forall_mem_append_cons (fun p hp => (hLmem p (hKmemL p hp)).1) hqfacts.1 ?_
            intro p hp
            exact (hLmem p (hBmemL p (List.mem_cons_of_mem _ hp))).1
          · refine forall_mem_append_cons (fun p hp => (hLmem p (hKmemL p hp)).2.1) ?_ ?_
            · dsimp only
              omega
            · intro p hp
              exact (hLmem p (hBmemL p (List.mem_cons_of_mem _ hp))).2.1
          · refine forall_mem_append_cons (fun p hp => (hLmem p (hKmemL p hp)).2.2.1) ?_ ?_
            · dsimp only
              omega
            · intro p hp
              exact (hLmem p (hBmemL p (List.mem_cons_of_mem _ hp))).2.2.1
          · refine forall_mem_append_cons (fun p hp => (hLmem p (hKmemL p hp)).2.2.2.1) ?_ ?_
            · exact Nat.dvd_add (Nat.dvd_add hqfacts.2.2.2.1 haszd) hbfacts.2.2.2.1
            · intro p hp
              exact (hLmem p (hBmemL p (List.mem_cons_of_mem _ hp))).2.2.2.1
          · refine forall_mem_append_cons (fun p hp => (hLmem p (hKmemL p hp)).2.2.2.2) ?_ ?_
            · exact hqfacts.2.2.2.2
            · intro p hp
              exact (hLmem p (hBmemL p (List.mem_cons_of_mem _ hp))).2.2.2.2
          · refine nodesOrdered_build hordK hordB2 hXe_q ?_
            intro y hy
            have := hbrel y hy
            dsimp only at this ⊢
            omega
          · rw [hsalloc]
            rw [hAB, hK] at hcons hfits
            simp only [sumSizes_append, sumSizes_cons, sumSizes_nil] at hcons hfits ⊢
            omega
          · rw [skipValidAmended, hsskip]
            exact Or.inr (Or.inl ⟨(qa, qsz + roundUp size + bsz),
              List.mem_append_right _ (List.mem_cons_self _ _), rfl⟩)
        · -- coalesce with the previous region only
          have hnn2 : ¬ (qa + ((s.mem qa).size + roundUp size) = (s.mem qa).next_offset + 8) := by
            rw [hmid]
            omega
          obtain ⟨hm_qa, hm_oth⟩ := @freeCommit_mem_p_nn cfg s ptr size qa hpm hnn2
          have hm_qa2 : (freeCommit cfg s ptr size qa).mem qa = ⟨mid, qsz + roundUp size⟩ := by
            rw [hm_qa, hmid, hqsz]
            simp
          have hm0 : (freeCommit cfg s ptr size qa).mem 0 = s.mem 0 := hm_oth 0 (by omega)
          refine ⟨K ++ (qa, qsz + roundUp size) :: ((ba, bsz) :: B2), ?_, ?_⟩
          swap
          · rw [hAB, hK]
            simp only [sumSizes_append, sumSizes_cons, sumSizes_nil]
            omega
          rw [hfree]
          have hchainBfull : ChainSeg (freeCommit cfg s ptr size qa).mem mid
              ((ba, bsz) :: B2) EOL_OFF :=
            chainSeg_congr (ChainSeg.cons hbne hba hbsz htailB)
              fun p hp => hm_oth p.1 (hBne p hp).2
          have hrel := chainSeg_relabel_last K hcKq
            (fun p hp => hm_oth p.1 (hKne p hp).2) hm_qa2
          have hchainL2 := chainSeg_append hrel hchainBfull
          rw [List.append_assoc] at hchainL2
          refine ⟨harea, ?_, ?_, ?_, ?_, ?_, ?_, ?_, ?_, ?_, ?_⟩
          · rw [Chain, hm0]
            exact hchainL2
          · rw [hm0]
            exact hwf.sentinel_size
          · refine forall_mem_append_cons (fun p hp => (hLmem p (hKmemL p hp)).1) hqfacts.1 ?_
            intro p hp
            exact (hLmem p (hBmemL p hp)).1
          · refine forall_mem_append_cons (fun p hp => (hLmem p (hKmemL p hp)).2.1) ?_ ?_
            · dsimp only
              omega
            · intro p hp
              exact (hLmem p (hBmemL p hp)).2.1
          · refine forall_mem_append_cons (fun p hp => (hLmem p (hKmemL p hp)).2.2.1) ?_ ?_
            · dsimp only
              omega
            · intro p hp
              exact (hLmem p (hBmemL p hp)).2.2.1
          · refine forall_mem_append_cons (fun p hp => (hLmem p (hKmemL p hp)).2.2.2.1) ?_ ?_
            · exact Nat.dvd_add hqfacts.2.2.2.1 haszd
            · intro p hp
              exact (hLmem p (hBmemL p hp)).2.2.2.1
          · refine forall_mem_append_cons (fun p hp => (hLmem p (hKmemL p hp)).2.2.2.2) ?_ ?_
            · exact hqfacts.2.2.2.2
            · intro p hp
              exact (hLmem p (hBmemL p hp)).2.2.2.2
          · refine nodesOrdered_build hordK hordB hXe_q ?_
            intro y hy
            rw [List.head?_cons, Option.mem_def] at hy
            injection hy with hy
            subst hy
            dsimp only
            omega
          · rw [hsalloc]
            rw [hAB, hK] at hcons hfits
            simp only [sumSizes_append, sumSizes_cons, sumSizes_nil] at hcons hfits ⊢
            omega
          · rw [skipValidAmended, hsskip]
            exact Or.inr (Or.inl ⟨(qa, qsz + roundUp size),
              List.mem_append_right _ (List.mem_cons_self _ _), rfl⟩)
    · -- the freed block is not adjacent to `q`: a new node is linked after `q`
      have hprevne : qa ≠ ptr := by omega
      have hXe_p : ∀ x ∈ (K ++ [(qa, qsz)]).getLast?, x.1 + x.2 < ptr := by
        intro x hx
        rw [List.getLast?_concat, Option.mem_def] at hx
        injection hx with hx
        subst hx
        dsimp only
        omega
      cases B with
      | nil =>
        have hmidEol : mid = EOL_OFF := chainSeg_nil_inv hchainB
        have hnn : ¬ (ptr + roundUp size = (s.mem qa).next_offset + 8) := by
          rw [hmid, hmidEol]
          omega
        obtain ⟨hm_ptr, hm_qa, hm_oth⟩ := @freeCommit_mem_np_nn cfg s ptr size qa hprevne hpm hnn
        have hm_ptr2 : (freeCommit cfg s ptr size qa).mem ptr = ⟨EOL_OFF, roundUp size⟩ := by
          rw [hm_ptr, hmid, hmidEol]
          simp
        have hm_qa2 : (freeCommit cfg s ptr size qa).mem qa = ⟨ptr - 8, qsz⟩ := by
          rw [hm_qa, hqsz]
        have hm0 : (freeCommit cfg s ptr size qa).mem 0 = s.mem 0 :=
          hm_oth 0 (by omega) (by omega)
        refine ⟨(K ++ [(qa, qsz)]) ++ (ptr, roundUp size) :: [], ?_, ?_⟩
        swap
        · rw [hAB, hK]
          simp only [sumSizes_append, sumSizes_cons, sumSizes_nil, List.append_nil]
          omega
        rw [hfree]
        have hrel := chainSeg_relabel_last K hcKq
          (fun p hp => hm_oth p.1 (hKne p hp).1 (hKne p hp).2) hm_qa2
        refine ⟨harea, ?_, ?_, ?_, ?_, ?_, ?_, ?_, ?_, ?_, ?_⟩
        · rw [Chain, hm0]
          exact chain_build hrel hm_ptr2 hptrlow (by omega) (ChainSeg.nil _)
        · rw [hm0]
          exact hwf.sentinel_size
        · refine forall_mem_append_cons ?_ hfp.lower (by simp)
          intro p hp
          rw [← hK] at hp
          exact (hLmem p (hAmemL p hp)).1
        · refine forall_mem_append_cons ?_ hptrup (by simp)
          intro p hp
          rw [← hK] at hp
          exact (hLmem p (hAmemL p hp)).2.1
        · refine forall_mem_append_cons ?_ (by dsimp only; omega) (by simp)
          intro p hp
          rw [← hK] at hp
          exact (hLmem p (hAmemL p hp)).2.2.1
        · refine forall_mem_append_cons ?_ haszd (by simp)
          intro p hp
          rw [← hK] at hp
          exact (hLmem p (hAmemL p hp)).2.2.2.1
        · refine forall_mem_append_cons ?_ hfp.align (by simp)
          intro p hp
          rw [← hK] at hp
          exact (hLmem p (hAmemL p hp)).2.2.2.2
        · exact nodesOrdered_build hordA2 List.chain'_nil hXe_p (by simp)
        · rw [hsalloc]
          rw [hAB, hK] at hcons hfits
          simp only [sumSizes_append, sumSizes_cons, sumSizes_nil, List.append_nil] at hcons hfits ⊢
          omega
        · rw [skipValidAmended, hsskip]
          exact Or.inr (Or.inl ⟨(qa, qsz),
            List.mem_append_left _ (List.mem_append_right _ (List.mem_singleton_self _)), rfl⟩)
      | cons b B2 =>
        obtain ⟨ba, bsz⟩ := b
        cases hchainB with
        | cons hbne hba hbsz htailB =>
        have hbmemL : (ba, bsz) ∈ L := hBmemL _ (List.mem_cons_self _ _)
        have hbfacts := hLmem _ hbmemL
        dsimp only at hbfacts
        have hbgt : ptr < ba := by
          have := hB (ba, bsz) (List.mem_cons_self _ _)
          dsimp only at this
          exact this
        have hdisjb := hfp.disjoint _ hbmemL
        dsimp only at hdisjb
        have hB2ne : ∀ p ∈ B2, p.1 ≠ ptr ∧ p.1 ≠ qa := fun p hp =>
          hBne p (List.mem_cons_of_mem _ hp)
        have hbrel := (List.chain'_cons'.1 hordB).1
        have hordB2 := (List.chain'_cons'.1 hordB).2
        have hnext_eq : (s.mem qa).next_offset + 8 = ba := by
          rw [hmid]
          omega
        by_cases hnm : ptr + roundUp size = ba
        · -- coalesce with the following region only
          have hn : ptr + roundUp size = (s.mem qa).next_offset + 8 := by
            rw [hnext_eq]
            exact hnm
          have hne2 : (s.mem qa).next_offset + 8 ≠ ptr := by
            rw [hnext_eq]
            omega
          have hne3 : (s.mem qa).next_offset + 8 ≠ qa := by
            rw [hnext_eq]
            omega
          obtain ⟨hm_ptr, hm_qa, hm_oth⟩ :=
            @freeCommit_mem_np_n cfg s ptr size qa hprevne hpm hn hne2 hne3
          have hm_ptr2 : (freeCommit cfg s ptr size qa).mem ptr =
              ⟨(s.mem ba).next_offset, roundUp size + bsz⟩ := by
            rw [hm_ptr, hnext_eq, ← hbsz]
          have hm_qa2 : (freeCommit cfg s ptr size qa).mem qa = ⟨ptr - 8, qsz⟩ := by
            rw [hm_qa, hqsz]
          have hm0 : (freeCommit cfg s ptr size qa).mem 0 = s.mem 0 :=
            hm_oth 0 (by omega) (by omega)
          refine ⟨(K ++ [(qa, qsz)]) ++ (ptr, roundUp size + bsz) :: B2, ?_, ?_⟩
          swap
          · rw [hAB, hK]
            simp only [sumSizes_append, sumSizes_cons, sumSizes_nil]
            omega
          rw [hfree]
          have hchainB2 : ChainSeg (freeCommit cfg s ptr size qa).mem (s.mem ba).next_offset
              B2 EOL_OFF :=
            chainSeg_congr htailB fun p hp =>
              hm_oth p.1 (hB2ne p hp).1 (hB2ne p hp).2
          have hrel := chainSeg_relabel_last K hcKq
            (fun p hp => hm_oth p.1 (hKne p hp).1 (hKne p hp).2) hm_qa2
          refine ⟨harea, ?_, ?_, ?_, ?_, ?_, ?_, ?_, ?_, ?_, ?_⟩
          · rw [Chain, hm0]
            exact chain_build hrel hm_ptr2 hptrlow (by omega) hchainB2
          · rw [hm0]
            exact hwf.sentinel_size
          · refine forall_mem_append_cons ?_ hfp.lower ?_
            · intro p hp
              rw [← hK] at hp
              exact (hLmem p (hAmemL p hp)).1
            · intro p hp
              exact (hLmem p (hBmemL p (List.mem_cons_of_mem _ hp))).1
          · refine forall_mem_append_cons ?_ (by dsimp only; omega) ?_
            · intro p hp
              rw [← hK] at hp
              exact (hLmem p (hAmemL p hp)).2.1
            · intro p hp
              exact (hLmem p (hBmemL p (List.mem_cons_of_mem _ hp))).2.1
          · refine forall_mem_append_cons ?_ (by dsimp only; omega) ?_
            · intro p hp
              rw [← hK] at hp
              exact (hLmem p (hAmemL p hp)).2.2.1
            · intro p hp
              exact (hLmem p (hBmemL p (List.mem_cons_of_mem _ hp))).2.2.1
          · refine forall_mem_append_cons ?_ (Nat.dvd_add haszd hbfacts.2.2.2.1) ?_
            · intro p hp
              rw [← hK] at hp
              exact (hLmem p (hAmemL p hp)).2.2.2.1
            · intro p hp
              exact (hLmem p (hBmemL p (List.mem_cons_of_mem _ hp))).2.2.2.1
          · refine forall_mem_append_cons ?_ hfp.align ?_
            · intro p hp
              rw [← hK] at hp
              exact (hLmem p (hAmemL p hp)).2.2.2.2
            · intro p hp
              exact (hLmem p (hBmemL p (List.mem_cons_of_mem _ hp))).2.2.2.2
          · refine nodesOrdered_build hordA2 hordB2 hXe_p ?_
            intro y hy
            have := hbrel y hy
            dsimp only at this ⊢
            omega
          · rw [hsalloc]
            rw [hAB, hK] at hcons hfits
            simp only [sumSizes_append, sumSizes_cons, sumSizes_nil] at hcons hfits ⊢
            omega
          · rw [skipValidAmended, hsskip]
            exact Or.inr (Or.inl ⟨(qa, qsz),
              List.mem_append_left _ (List.mem_append_right _ (List.mem_singleton_self _)), rfl⟩)
        · -- no coalescing: the freed block becomes a standalone node
          have hnn : ¬ (ptr + roundUp size = (s.mem qa).next_offset + 8) := by
            rw [hnext_eq]
            exact hnm
          obtain ⟨hm_ptr, hm_qa, hm_oth⟩ :=
            @freeCommit_mem_np_nn cfg s ptr size qa hprevne hpm hnn
          have hm_ptr2 : (freeCommit cfg s ptr size qa).mem ptr = ⟨mid, roundUp size⟩ := by
            rw [hm_ptr, hmid]
            simp
          have hm_qa2 : (freeCommit cfg s ptr size qa).mem qa = ⟨ptr - 8, qsz⟩ := by
            rw [hm_qa, hqsz]
          have hm0 : (freeCommit cfg s ptr size qa).mem 0 = s.mem 0 :=
            hm_oth 0 (by omega) (by omega)
          refine ⟨(K ++ [(qa, qsz)]) ++ (ptr, roundUp size) :: ((ba, bsz) :: B2), ?_, ?_⟩
          swap
          · rw [hAB, hK]
            simp only [sumSizes_append, sumSizes_cons, sumSizes_nil]
            omega
          rw [hfree]
          have hchainBfull : ChainSeg (freeCommit cfg s ptr size qa).mem mid
              ((ba, bsz) :: B2) EOL_OFF :=
            chainSeg_congr (ChainSeg.cons hbne hba hbsz htailB)
              fun p hp => hm_oth p.1 (hBne p hp).1 (hBne p hp).2
          have hrel := chainSeg_relabel_last K hcKq
            (fun p hp => hm_oth p.1 (hKne p hp).1 (hKne p hp).2) hm_qa2
          refine ⟨harea, ?_, ?_, ?_, ?_, ?_, ?_, ?_, ?_, ?_, ?_⟩
          · rw [Chain, hm0]
            exact chain_build hrel hm_ptr2 hptrlow (by omega) hchainBfull
          · rw [hm0]
            exact hwf.sentinel_size
          · refine forall_mem_append_cons ?_ hfp.lower ?_
            · intro p hp
              rw [← hK] at hp
              exact (hLmem p (hAmemL p hp)).1
            · intro p hp
              exact (hLmem p (hBmemL p hp)).1
          · refine forall_mem_append_cons ?_ hptrup ?_
            · intro p hp
              rw [← hK] at hp
              exact (hLmem p (hAmemL p hp)).2.1
            · intro p hp
              exact (hLmem p (hBmemL p hp)).2.1
          · refine forall_mem_append_cons ?_ (by dsimp only; omega) ?_
            · intro p hp
              rw [← hK] at hp
              exact (hLmem p (hAmemL p hp)).2.2.1
            · intro p hp
              exact (hLmem p (hBmemL p hp)).2.2.1
          · refine forall_mem_append_cons ?_ haszd ?_
            · intro p hp
              rw [← hK] at hp
              exact (hLmem p (hAmemL p hp)).2.2.2.1
            · intro p hp
              exact (hLmem p (hBmemL p hp)).2.2.2.1
          · refine forall_mem_append_cons ?_ hfp.align ?_
            · intro p hp
              rw [← hK] at hp
              exact (hLmem p (hAmemL p hp)).2.2.2.2
            · intro p hp
              exact (hLmem p (hBmemL p hp)).2.2.2.2
          · refine nodesOrdered_build hordA2 hordB hXe_p ?_
            intro y hy
            rw [List.head?_cons, Option.mem_def] at hy
            injection hy with hy
            subst hy
            dsimp only
            omega
          · rw [hsalloc]
            rw [hAB, hK] at hcons hfits
            simp only [sumSizes_append, sumSizes_cons, sumSizes_nil] at hcons hfits ⊢
            omega
          · rw [skipValidAmended, hsskip]
            exact Or.inr (Or.inl ⟨(qa, qsz),
              List.mem_append_left _ (List.mem_append_right _ (List.mem_singleton_self _)), rfl⟩)

/-- jmem_heap_init establishes well-formedness: the free list is the single
region spanning the whole area. -/
theorem wf_init {cfg : Config} (hpos : 0 < cfg.areaSize) (hdvd : ALIGNMENT ∣ cfg.areaSize)
    (harea : 8 + cfg.areaSize < EOL_OFF) :
    WF cfg (jmem_heap_init cfg) [(8, cfg.areaSize)] := by
  have hm0 : (jmem_heap_init cfg).mem 0 = ⟨0, 0⟩ := rfl
  have hm8 : (jmem_heap_init cfg).mem 8 = ⟨EOL_OFF, cfg.areaSize⟩ := rfl
  refine ⟨harea, ?_, ?_, ?_, ?_, ?_, ?_, ?_, ?_, ?_, ?_⟩
  · rw [Chain, hm0]
    refine ChainSeg.cons ?_ rfl ?_ ?_
    · decide
    · rw [hm8]
    · rw [hm8]
      exact ChainSeg.nil _
  · rw [hm0]
  · intro p hp
    rw [List.mem_singleton.1 hp]
  · intro p hp
    rw [List.mem_singleton.1 hp]
  · intro p hp
    rw [List.mem_singleton.1 hp]
    exact hpos
  · intro p hp
    rw [List.mem_singleton.1 hp]
    exact hdvd
  · intro p hp
    rw [List.mem_singleton.1 hp]
    exact ⟨1, rfl⟩
  · exact List.chain'_singleton _
  · simp [sumSizes, jmem_heap_init]
  · exact Or.inl rfl

/-- Both public operations keep the state well formed with respect to
whatever abstract list its memory exhibits: the resulting free list is
unique, so well-formedness can be read back from any chain witness. -/
theorem wf_after_ops {cfg : Config} {s : HeapState} {L : List (Nat × Nat)} {size : Nat}
    (hwf : WF cfg s L) (hpos : 0 < size) :
    (∀ r s', jmem_heap_alloc_block_internal cfg s size = (r, s') →
      ∀ L', Chain s'.mem (s'.mem 0).next_offset L' → WF cfg s' L') ∧
    (∀ ptr, FreePre cfg L ptr size →
      ∀ L', Chain (jmem_heap_free_block cfg s ptr size).mem
          ((jmem_heap_free_block cfg s ptr size).mem 0).next_offset L' →
        WF cfg (jmem_heap_free_block cfg s ptr size) L') := by
  constructor
  · intro r s' heq L' hL'
    rcases hres : firstFitSpec (roundUp size) L with _ | ⟨a, L2⟩
    · obtain ⟨heq2, hwf2⟩ := (alloc_internal_spec hwf hpos).1 hres
      rw [heq2] at heq
      injection heq with h1 h2
      subst h2
      rwa [← chainSeg_eol_unique hwf2.chain hL']
    · obtain ⟨s2, heq2, hwf2, h3, h4⟩ := (alloc_internal_spec hwf hpos).2 a L2 hres
      rw [heq2] at heq
      injection heq with h1 h2
      subst h2
      rwa [← chainSeg_eol_unique hwf2.chain hL']
  · intro ptr hfp L' hL'
    obtain ⟨L2, hwf2, h3⟩ := free_block_spec hwf hfp
    rwa [← chainSeg_eol_unique hwf2.chain hL']

/-- Under an empty callback registry the pressure loop reduces to the
internal allocator: a first-fit success is returned directly, and when
first fit fails every retry fails again on the unchanged free list. -/
theorem gc_and_alloc_empty_eq {cfg : Config} {s : HeapState} {L : List (Nat × Nat)}
    {size : Nat} (hwf : WF cfg s L) (hpos : 0 < size) :
    (∀ a L2, firstFitSpec (roundUp size) L = some (a, L2) →
      ∃ s2 log, jmem_heap_gc_and_alloc_block cfg emptyRegistry s size = (some a, s2, log) ∧
        WF cfg s2 L2 ∧ s2.allocatedSize = s.allocatedSize + roundUp size ∧
        ∃ sz, (a, sz) ∈ L ∧ roundUp size ≤ sz) ∧
    (firstFitSpec (roundUp size) L = none →
      ∃ s2 log, jmem_heap_gc_and_alloc_block cfg emptyRegistry s size = (none, s2, log) ∧
        WF cfg s2 L ∧ s2.allocatedSize = s.allocatedSize) := by
  constructor
  · intro a L2 hff
    obtain ⟨s2, heq, hwf2, halloc, hmem⟩ := (alloc_internal_spec hwf hpos).2 a L2 hff
    refine ⟨s2, if s.allocatedSize + size ≥ s.limit then [Severity.low] else [],
      ?_, hwf2, halloc, hmem⟩
    unfold jmem_heap_gc_and_alloc_block
    simp only [emptyRegistry, ite_self]
    rw [heq]
  · intro hff
    obtain ⟨heq1, hwf1⟩ := (alloc_internal_spec hwf hpos).1 hff
    have ha1 : ({ s with limit := growLimit cfg.desiredLimit s.allocatedSize s.limit }
        : HeapState).allocatedSize = s.allocatedSize := rfl
    generalize ht1 : ({ s with limit := growLimit cfg.desiredLimit s.allocatedSize s.limit }
        : HeapState) = t1 at heq1 hwf1 ha1
    obtain ⟨heq2, hwf2⟩ := (alloc_internal_spec hwf1 hpos).1 hff
    have ha2 : ({ t1 with limit := growLimit cfg.desiredLimit t1.allocatedSize t1.limit }
        : HeapState).allocatedSize = t1.allocatedSize := rfl
    generalize ht2 : ({ t1 with limit := growLimit cfg.desiredLimit t1.allocatedSize t1.limit }
        : HeapState) = t2 at heq2 hwf2 ha2
    obtain ⟨heq3, hwf3⟩ := (alloc_internal_spec hwf2 hpos).1 hff
    have ha3 : ({ t2 with limit := growLimit cfg.desiredLimit t2.allocatedSize t2.limit }
        : HeapState).allocatedSize = t2.allocatedSize := rfl
    generalize ht3 : ({ t2 with limit := growLimit cfg.desiredLimit t2.allocatedSize t2.limit }
        : HeapState) = t3 at heq3 hwf3 ha3
    refine ⟨t3, (if s.allocatedSize + size ≥ s.limit then [Severity.low] else []) ++
      [Severity.low, Severity.high], ?_, hwf3, by rw [ha3, ha2, ha1]⟩
    unfold jmem_heap_gc_and_alloc_block
    simp only [emptyRegistry, ite_self]
    rw [heq1]
    dsimp only
    rw [heq2]
    dsimp only
    rw [heq3]

/-- C2: conservation: in a well-formed state `allocated_size` equals
`HEAP_AREA_SIZE` minus the total size of the free-list regions, and both
the internal allocator and `jmem_heap_free_block` preserve the equality,
as read back from the resulting state's own free list. -/
theorem conservation_invariant {cfg : Config} {s : HeapState} {L : List (Nat × Nat)}
    {size : Nat} (hwf : WF cfg s L) (hpos : 0 < size) :
    s.allocatedSize + sumSizes L = cfg.areaSize ∧
    (∀ r s', jmem_heap_alloc_block_internal cfg s size = (r, s') →
      ∀ L', Chain s'.mem (s'.mem 0).next_offset L' →
        s'.allocatedSize + sumSizes L' = cfg.areaSize) ∧
    (∀ ptr, FreePre cfg L ptr size →
      ∀ L', Chain (jmem_heap_free_block cfg s ptr size).mem
          ((jmem_heap_free_block cfg s ptr size).mem 0).next_offset L' →
        (jmem_heap_free_block cfg s ptr size).allocatedSize + sumSizes L' = cfg.areaSize) := by
  refine ⟨hwf.conservation, ?_, ?_⟩
  · intro r s' heq L' hL'
    exact ((wf_after_ops hwf hpos).1 r s' heq L' hL').conservation
  · intro ptr hfp L' hL'
    exact ((wf_after_ops hwf hpos).2 ptr hfp L' hL').conservation

/-- C2 witness: the freshly initialized 32-byte heap satisfies
well-formedness and its conservation equality. -/
theorem conservation_invariant_witness :
    WF ⟨32, 16⟩ (jmem_heap_init ⟨32, 16⟩) [(8, 32)] ∧
    (jmem_heap_init ⟨32, 16⟩).allocatedSize + sumSizes [(8, 32)] = (32 : Nat) :=
  have hwf : WF ⟨32, 16⟩ (jmem_heap_init ⟨32, 16⟩) [(8, 32)] :=
    wf_init (by decide) (by decide) (by decide)
  ⟨hwf, (conservation_invariant hwf (by decide : (0 : Nat) < 8)).1⟩

/-- C3: no touching frees: in a well-formed state the free regions are
strictly ordered with gaps between adjacent pairs, and both the internal
allocator and `jmem_heap_free_block` preserve the property on the free
list read back from the resulting state. -/
theorem no_touching_frees {cfg : Config} {s : HeapState} {L : List (Nat × Nat)}
    {size : Nat} (hwf : WF cfg s L) (hpos : 0 < size) :
    NodesOrdered L ∧
    (∀ r s', jmem_heap_alloc_block_internal cfg s size = (r, s') →
      ∀ L', Chain s'.mem (s'.mem 0).next_offset L' → NodesOrdered L') ∧
    (∀ ptr, FreePre cfg L ptr size →
      ∀ L', Chain (jmem_heap_free_block cfg s ptr size).mem
          ((jmem_heap_free_block cfg s ptr size).mem 0).next_offset L' →
        NodesOrdered L') := by
  refine ⟨hwf.ordered, ?_, ?_⟩
  · intro r s' heq L' hL'
    exact ((wf_after_ops hwf hpos).1 r s' heq L' hL').ordered
  · intro ptr hfp L' hL'
    exact ((wf_after_ops hwf hpos).2 ptr hfp L' hL').ordered

/-- C3 witness: the freshly initialized 32-byte heap is well formed and
its single-node free list is strictly ordered. -/
theorem no_touching_frees_witness :
    WF ⟨32, 16⟩ (jmem_heap_init ⟨32, 16⟩) [(8, 32)] ∧
    NodesOrdered [(8, (32 : Nat))] :=
  have hwf : WF ⟨32, 16⟩ (jmem_heap_init ⟨32, 16⟩) [(8, 32)] :=
    wf_init (by decide) (by decide) (by decide)
  ⟨hwf, (no_touching_frees hwf (by decide : (0 : Nat) < 8)).1⟩

/-- C7 (amended): after the internal allocator and after
`jmem_heap_free_block`, the skip pointer points to the sentinel, to a node
of the current free list, or to the `END_OF_LIST` address and then only
while the free list is empty (the fast path leaves it there after
consuming the last free region it was resting on). -/
theorem skip_hint_validity_amended {cfg : Config} {s : HeapState} {L : List (Nat × Nat)}
    {size : Nat} (hwf : WF cfg s L) (hpos : 0 < size) :
    skipValidAmended s L ∧
    (∀ r s', jmem_heap_alloc_block_internal cfg s size = (r, s') →
      ∀ L', Chain s'.mem (s'.mem 0).next_offset L' → skipValidAmended s' L') ∧
    (∀ ptr, FreePre cfg L ptr size →
      ∀ L', Chain (jmem_heap_free_block cfg s ptr size).mem
          ((jmem_heap_free_block cfg s ptr size).mem 0).next_offset L' →
        skipValidAmended (jmem_heap_free_block cfg s ptr size) L') := by
  refine ⟨hwf.skip_ok, ?_, ?_⟩
  · intro r s' heq L' hL'
    exact ((wf_after_ops hwf hpos).1 r s' heq L' hL').skip_ok
  · intro ptr hfp L' hL'
    exact ((wf_after_ops hwf hpos).2 ptr hfp L' hL').skip_ok

/-- C7 witness: the freshly initialized 32-byte heap is well formed and
its skip pointer rests on the sentinel. -/
theorem skip_hint_validity_amended_witness :
    WF ⟨32, 16⟩ (jmem_heap_init ⟨32, 16⟩) [(8, 32)] ∧
    skipValidAmended (jmem_heap_init ⟨32, 16⟩) [(8, 32)] :=
  have hwf : WF ⟨32, 16⟩ (jmem_heap_init ⟨32, 16⟩) [(8, 32)] :=
    wf_init (by decide) (by decide) (by decide)
  ⟨hwf, (skip_hint_validity_amended hwf (by decide : (0 : Nat) < 8)).1⟩

/-- C4: the slow path is first fit carving from the front: for a request
whose rounded size is not the fast-path minimum, the internal allocator
fails exactly when the abstract first fit fails, and on success it returns
the first-fit address while the resulting state's free list is the
first-fit remainder, in which an exact fit has been unlinked and a larger
candidate has been replaced by the node at `candidate + required` of size
`candidate.size - required`. -/
theorem slow_path_first_fit {cfg : Config} {s : HeapState} {L : List (Nat × Nat)}
    {size : Nat} (hwf : WF cfg s L) (hpos : 0 < size)
    (hslow : roundUp size ≠ ALIGNMENT) :
    (firstFitSpec (roundUp size) L = none →
      (jmem_heap_alloc_block_internal cfg s size).1 = none) ∧
    (∀ a L2, firstFitSpec (roundUp size) L = some (a, L2) →
      (jmem_heap_alloc_block_internal cfg s size).1 = some a ∧
      Chain (jmem_heap_alloc_block_internal cfg s size).2.mem
        (((jmem_heap_alloc_block_internal cfg s size).2.mem 0).next_offset) L2) := by
  constructor
  · intro hff
    obtain ⟨heq, h2⟩ := (alloc_internal_spec hwf hpos).1 hff
    rw [heq]
  · intro a L2 hff
    obtain ⟨s2, heq, hwf2, h3, h4⟩ := (alloc_internal_spec hwf hpos).2 a L2 hff
    rw [heq]
    exact ⟨rfl, hwf2.chain⟩

/-- C4 witness: on the fresh 32-byte heap a 16-byte request takes the slow
path, first fit carves the single 32-byte region from the front, and the
allocator returns its address. -/
theorem slow_path_first_fit_witness :
    roundUp 16 ≠ ALIGNMENT ∧
    firstFitSpec (roundUp 16) [(8, 32)] = some (8, [(24, 16)]) ∧
    (jmem_heap_alloc_block_internal ⟨32, 16⟩ (jmem_heap_init ⟨32, 16⟩) 16).1 = some 8 :=
  have hwf : WF ⟨32, 16⟩ (jmem_heap_init ⟨32, 16⟩) [(8, 32)] :=
    wf_init (by decide) (by decide) (by decide)
  ⟨by decide, by decide,
    ((slow_path_first_fit hwf (by decide : (0 : Nat) < 16) (by decide)).2 8 [(24, 16)]
      (by decide)).1⟩

/-- C9: `jmem_heap_alloc_block_store_size` hands out an address aligned at
least to 4 bytes that sits immediately after a header holding the block's
byte length (the request enlarged by the header size), and
`jmem_heap_free_block_size_stored` on that address releases the underlying
block with exactly the stored length, restoring `allocated_size` to its
value before the allocation. -/
theorem store_size_free_pairing {cfg : Config} {s : HeapState} {L : List (Nat × Nat)}
    {size q : Nat} (hwf : WF cfg s L) (hpos : 0 < size)
    (hq : (jmem_heap_alloc_block_store_size cfg emptyRegistry s size).1 = some q) :
    4 ∣ q ∧
    ((jmem_heap_alloc_block_store_size cfg emptyRegistry s size).2.1.mem
        (q - ALIGNMENT)).size = size + ALIGNMENT ∧
    jmem_heap_free_block_size_stored cfg
        (jmem_heap_alloc_block_store_size cfg emptyRegistry s size).2.1 q =
      jmem_heap_free_block cfg
        (jmem_heap_alloc_block_store_size cfg emptyRegistry s size).2.1
        (q - ALIGNMENT) (size + ALIGNMENT) ∧
    (jmem_heap_free_block_size_stored cfg
        (jmem_heap_alloc_block_store_size cfg emptyRegistry s size).2.1 q).allocatedSize
      = s.allocatedSize := by
  have hs0 : ¬ size = 0 := by omega
  have hpos2 : 0 < size + ALIGNMENT := by
    unfold ALIGNMENT
    omega
  rcases hffc : firstFitSpec (roundUp (size + ALIGNMENT)) L with _ | ⟨a, L2⟩
  · exfalso
    obtain ⟨t, lg, hgc, h2, h3⟩ := (gc_and_alloc_empty_eq hwf hpos2).2 hffc
    have hblock : jmem_heap_alloc_block cfg emptyRegistry s (size + ALIGNMENT) =
        (.fatal, t, lg) := by
      unfold jmem_heap_alloc_block
      rw [if_neg (show ¬ size + ALIGNMENT = 0 by omega), hgc]
    unfold jmem_heap_alloc_block_store_size at hq
    rw [if_neg hs0] at hq
    dsimp only at hq
    rw [hblock] at hq
    simp at hq
  · obtain ⟨t, lg, hgc, hwf2, halloc, sz0, hmemL, hszle⟩ :=
      (gc_and_alloc_empty_eq hwf hpos2).1 a L2 hffc
    have hblock : jmem_heap_alloc_block cfg emptyRegistry s (size + ALIGNMENT) =
        (.ptr a, t, lg) := by
      unfold jmem_heap_alloc_block
      rw [if_neg (show ¬ size + ALIGNMENT = 0 by omega), hgc]
    have hcalleq : jmem_heap_alloc_block_store_size cfg emptyRegistry s size =
        (some (a + ALIGNMENT), setSize t a (size + ALIGNMENT), lg) := by
      unfold jmem_heap_alloc_block_store_size
      rw [if_neg hs0]
      dsimp only
      rw [hblock]
    have hq2 : q = a + ALIGNMENT := by
      rw [hcalleq] at hq
      dsimp only at hq
      injection hq with hq
      exact hq.symm
    subst hq2
    have ha8 : ALIGNMENT ∣ a := hwf.addr_align _ hmemL
    have hqa : a + ALIGNMENT - ALIGNMENT = a := by omega
    rw [hcalleq]
    dsimp only
    have hhdr : ((setSize t a (size + ALIGNMENT)).mem a).size = size + ALIGNMENT := by
      simp [setSize, setNode]
    refine ⟨?_, ?_, ?_, ?_⟩
    · unfold ALIGNMENT at ha8 ⊢
      omega
    · rw [hqa]
      exact hhdr
    · unfold jmem_heap_free_block_size_stored
      rw [hqa, hhdr]
    · unfold jmem_heap_free_block_size_stored
      rw [hqa, hhdr, free_block_allocated]
      have hts : (setSize t a (size + ALIGNMENT)).allocatedSize = t.allocatedSize := rfl
      rw [hts, halloc]
      have hle := le_roundUp (size + ALIGNMENT)
      omega

/-- C9 witness: on the fresh 32-byte heap an 8-byte stored-size request
returns address 16; the hypotheses of the pairing theorem hold there. -/
theorem store_size_free_pairing_witness :
    WF ⟨32, 16⟩ (jmem_heap_init ⟨32, 16⟩) [(8, 32)] ∧
    (jmem_heap_alloc_block_store_size ⟨32, 16⟩ emptyRegistry
        (jmem_heap_init ⟨32, 16⟩) 8).1 = some 16 ∧
    (4 : Nat) ∣ 16 :=
  have hwf : WF ⟨32, 16⟩ (jmem_heap_init ⟨32, 16⟩) [(8, 32)] :=
    wf_init (by decide) (by decide) (by decide)
  have hq : (jmem_heap_alloc_block_store_size ⟨32, 16⟩ emptyRegistry
      (jmem_heap_init ⟨32, 16⟩) 8).1 = some 16 := by decide
  ⟨hwf, hq,
    (@store_size_free_pairing ⟨32, 16⟩ (jmem_heap_init ⟨32, 16⟩) [(8, 32)] 8 16 hwf
      (by decide) hq).1⟩

end JmemHeap
